import Mathlib

/-!
# Field arithmetic for curve448 (`ecc-448.c`)

A shallow embedding of the routines of `ecc-448.c`:
`ecc_mod_pow_2k`, `ecc_mod_pow_446m224m1`, `ecc_448_inv`, `ecc_448_zero_p`
and `ecc_448_sqrt`.

A limb buffer of `ECC_LIMB_SIZE` limbs is represented by the natural number
it holds (little endian, `GMP_NUMB_BITS` bits per limb); limb `i` of a
buffer `x` is `limb x i`.  A `const struct ecc_modulo *` argument is
represented by the value of its modulus field `m`.  Each C function becomes
a function from the contents of the buffers it reads to the contents of the
buffers it writes, one `let` per C statement.
-/

namespace Ecc448

/-! ## Constants of `ecc-448.h` and primitives of `ecc-internal.h` / GMP -/

/-- Modelled from the spec: the limb width of `gmp.h`, which is not part of
the sources; limbs are fixed-width machine words, taken to be 64 bits. -/
def GMP_NUMB_BITS : Nat := 64

/-- Modelled from the spec: the constant `ECC_LIMB_SIZE` of the generated
header `ecc-448.h`, the number of limbs of a 448-bit field element. -/
def ECC_LIMB_SIZE : Nat := 7

/-- Modelled from the spec: the limb array `ecc_p` of the generated header
`ecc-448.h`, the field modulus p = 2^448 - 2^224 - 1. -/
def ecc_p : Nat := 2 ^ 448 - 2 ^ 224 - 1

/-- Number of values of an `ECC_LIMB_SIZE`-limb buffer. -/
def LIMB_RANGE : Nat := 2 ^ (GMP_NUMB_BITS * ECC_LIMB_SIZE)

/-- Limb `i` of the buffer holding `x`. -/
def limb (x i : Nat) : Nat := x / 2 ^ (GMP_NUMB_BITS * i) % 2 ^ GMP_NUMB_BITS

/-- Modelled from the spec: `ecc_mod_mul` of `ecc-internal.h`, which writes
the reduced product of two input residues into the output buffer. -/
def ecc_mod_mul (m ap bp : Nat) : Nat := (ap * bp) % m

/-- Modelled from the spec: `ecc_mod_sqr` of `ecc-internal.h`, which writes
the reduced square of one input residue into the output buffer. -/
def ecc_mod_sqr (m ap : Nat) : Nat := (ap * ap) % m

/-- Modelled from the spec: `ecc_mod_sub` of `ecc-internal.h`, the modular
subtract primitive on fixed-width residues; it writes the reduced
difference `ap - bp` into the output buffer. -/
def ecc_mod_sub (m ap bp : Nat) : Nat := (ap + (m - bp % m)) % m

/-- Modelled from the spec: `mpn_sub_n` of GMP, the raw subtract-with-borrow
primitive over fixed-width limb arrays: returns the borrow and the low
`ECC_LIMB_SIZE` limbs of the difference. -/
def mpn_sub_n (ap bp : Nat) : Nat × Nat :=
  (if ap % LIMB_RANGE < bp % LIMB_RANGE then 1 else 0,
   (ap % LIMB_RANGE + (LIMB_RANGE - bp % LIMB_RANGE)) % LIMB_RANGE)

/-- Modelled from the spec: `cnd_add_n`, the constant-time conditional add
primitive: adds `bp` to the buffer when `cnd` is nonzero, keeping the low
`ECC_LIMB_SIZE` limbs. -/
def cnd_add_n (cnd rp bp : Nat) : Nat :=
  if cnd ≠ 0 then (rp + bp) % LIMB_RANGE else rp

/-- Modelled from the spec: `mpn_copyi` of GMP, the copy primitive; the
destination receives the contents of the source. -/
def mpn_copyi (sp : Nat) : Nat := sp

/-- Number of values of the C type `unsigned` of the counter `k`. -/
def UINT_RANGE : Nat := 2 ^ 32

/-- Subtraction on the C type `unsigned`: wraps modulo `UINT_RANGE`. -/
def unsigned_sub (k d : Nat) : Nat := (k + (UINT_RANGE - d % UINT_RANGE)) % UINT_RANGE

/-! ## `ecc_mod_pow_2k` -/

/-- The loop `while (k > 0) { sqr (tp, rp); sqr (rp, tp); k -= 2; }` of
`ecc_mod_pow_2k`, on the state `(k, rp, tp)`; `none` when the fuel runs
out before the loop exits. -/
def ecc_mod_pow_2k_loop (m : Nat) : Nat → Nat → Nat → Nat → Option (Nat × Nat)
  | 0, _, _, _ => none
  | fuel + 1, k, rp, tp =>
    if k > 0 then
      let tp := ecc_mod_sqr m rp
      let rp := ecc_mod_sqr m tp
      let k := unsigned_sub k 2
      ecc_mod_pow_2k_loop m fuel k rp tp
    else
      some (rp, tp)

/-- Fuel given to the loop of `ecc_mod_pow_2k`: more iterations than any
32-bit even counter can need. -/
def POW_2K_FUEL : Nat := 2 ^ 31 + 1

/-- The function `ecc_mod_pow_2k (m, rp, xp, k, tp)`: from the input `xp`,
the counter `k` and the initial contents of the scratch `tp`, the final
contents of `(rp, tp)`. -/
def ecc_mod_pow_2k (m xp k tp : Nat) : Option (Nat × Nat) :=
  if k &&& 1 ≠ 0 then
    let rp := ecc_mod_sqr m xp
    let k := unsigned_sub k 1
    ecc_mod_pow_2k_loop m POW_2K_FUEL k rp tp
  else
    let tp := ecc_mod_sqr m xp
    let rp := ecc_mod_sqr m tp
    let k := unsigned_sub k 2
    ecc_mod_pow_2k_loop m POW_2K_FUEL k rp tp

/-! ## `ecc_mod_pow_446m224m1` -/

/-- The function `ecc_mod_pow_446m224m1 (p, rp, ap, scratch)`: from the
input `ap` and the initial contents of the scratch region `t2`, the final
contents of `rp`.  The regions `t0` and `t1` of the scratch are written
before they are read. -/
def ecc_mod_pow_446m224m1 (p ap t2 : Nat) : Option Nat := do
  let rp := ecc_mod_sqr p ap                  -- a^2
  let t0 := ecc_mod_mul p ap rp               -- a^3
  let rp := ecc_mod_sqr p t0                  -- a^6
  let t0 := ecc_mod_mul p ap rp               -- a^{2^3-1}
  let (rp, t2) ← ecc_mod_pow_2k p t0 3 t2     -- a^{2^6-2^3}
  let t1 := ecc_mod_mul p t0 rp               -- a^{2^6-1}
  let (rp, t2) ← ecc_mod_pow_2k p t1 3 t2     -- a^{2^9-2^3}
  let t1 := ecc_mod_mul p t0 rp               -- a^{2^9-1}
  let (t0, t2) ← ecc_mod_pow_2k p t1 9 t2     -- a^{2^18-2^9}
  let rp := ecc_mod_mul p t1 t0               -- a^{2^18-1}
  let t1 := ecc_mod_sqr p rp                  -- a^{2^19-2}
  let t0 := ecc_mod_mul p ap t1               -- a^{2^19-1}
  let (t1, t2) ← ecc_mod_pow_2k p t0 18 t2    -- a^{2^37-2^18}
  let t0 := ecc_mod_mul p rp t1               -- a^{2^37-1}
  let (t1, t2) ← ecc_mod_pow_2k p t0 37 t2    -- a^{2^74-2^37}
  let rp := ecc_mod_mul p t0 t1               -- a^{2^74-1}
  let (t1, t2) ← ecc_mod_pow_2k p rp 37 t2    -- a^{2^111-2^37}
  let rp := ecc_mod_mul p t0 t1               -- a^{2^111-1}
  let (t1, t2) ← ecc_mod_pow_2k p rp 111 t2   -- a^{2^222-2^111}
  let t0 := ecc_mod_mul p rp t1               -- a^{2^222-1}
  let t1 := ecc_mod_sqr p t0                  -- a^{2^223-2}
  let rp := ecc_mod_mul p ap t1               -- a^{2^223-1}
  let (t1, _) ← ecc_mod_pow_2k p rp 223 t2    -- a^{2^446-2^223}
  let rp := ecc_mod_mul p t0 t1               -- a^{2^446-2^222-1}
  pure rp

/-! ## `ecc_448_inv` -/

/-- The function `ecc_448_inv (p, rp, ap, scratch)`: the final contents of
`rp`. -/
def ecc_448_inv (p ap scratch : Nat) : Option Nat := do
  let rp ← ecc_mod_pow_446m224m1 p ap scratch  -- a^{2^446-2^222-1}
  let t0 := ecc_mod_sqr p rp                   -- a^{2^447-2^223-2}
  let rp := ecc_mod_sqr p t0                   -- a^{2^448-2^224-4}
  let t0 := ecc_mod_mul p ap rp                -- a^{2^448-2^224-3}
  let rp := mpn_copyi t0
  pure rp

/-! ## `ecc_448_zero_p` -/

/-- The loop `for (i = 0, w = 0; i < ECC_LIMB_SIZE; i++) w |= xp[i];` of
`ecc_448_zero_p`, run for `n` limbs from index `i` with accumulator `w`. -/
def or_limbs (xp : Nat) : Nat → Nat → Nat → Nat
  | 0, _, w => w
  | n + 1, i, w => or_limbs xp n (i + 1) (w ||| limb xp i)

/-- The function `ecc_448_zero_p (p, xp)`: the returned `int` and the final
contents of the buffer `xp`. -/
def ecc_448_zero_p (p xp : Nat) : Nat × Nat :=
  let (cy, xp) := mpn_sub_n xp p
  let xp := cnd_add_n cy xp p
  let w := or_limbs xp ECC_LIMB_SIZE 0 0
  (if w = 0 then 1 else 0, xp)

/-! ## `ecc_448_sqrt` -/

/-- The function `ecc_448_sqrt (p, rp, up, vp, scratch)`: the returned
`int` and the final contents of `rp`.  The argument `scratch` is the
initial contents of the part of the scratch handed to the chain. -/
def ecc_448_sqrt (p up vp scratch : Nat) : Option (Nat × Nat) := do
  let u2 := ecc_mod_sqr p up                   -- u2
  let u3 := ecc_mod_mul p u2 up                -- u3
  let u3v := ecc_mod_mul p u3 vp               -- u3v
  let uv := ecc_mod_mul p up vp                -- u3v, uv
  let u2v2 := ecc_mod_sqr p uv                 -- u3v, u2v2
  let u5v3 := ecc_mod_mul p u3v u2v2           -- u3v, u5v3
  let u5v3p ← ecc_mod_pow_446m224m1 p u5v3 scratch  -- u3v, u5v3p
  let rp := ecc_mod_mul p u5v3p u3v            -- none
  let x2 := ecc_mod_sqr p rp
  let vx2 := ecc_mod_mul p x2 vp
  let t0 := ecc_mod_sub p vx2 up
  pure ((ecc_448_zero_p p t0).1, rp)

/-! ## Certificates for the primality of the field modulus -/

/-- Square-and-multiply exponentiation modulo `m`: `acc * b ^ e` modulo `m`
for `e < 2 ^ fuel`. -/
def powmodAux (m : Nat) : Nat → Nat → Nat → Nat → Nat
  | 0, _, _, acc => acc
  | fuel + 1, b, e, acc =>
    if e = 0 then acc
    else powmodAux m fuel (b * b % m) (e / 2) (if e % 2 = 1 then acc * b % m else acc)

/-- Modular exponentiation `b ^ e` modulo `m` by square-and-multiply. -/
def powmod (b e m : Nat) : Nat := powmodAux m (e + 1) b e 1

/-- Product of the prime powers of a factorisation `[(q, k), ...]`. -/
def certProd : List (Nat × Nat) → Nat
  | [] => 1
  | x :: t => x.1 ^ x.2 * certProd t

/-- Checks of a Lucas certificate: `F` multiplies to `p - 1`, `a ^ (p - 1) = 1`
and `a ^ ((p - 1) / q) ≠ 1` modulo `p` for every `q` of `F`. -/
def lucasCheck (p a : Nat) (F : List (Nat × Nat)) : Bool :=
  decide (1 < p) && (certProd F == p - 1) && (powmod a (p - 1) p % p == 1) &&
    F.all fun x => powmod a ((p - 1) / x.1) p % p != 1

/-- Residues `re + im * i` of Gaussian integers modulo `q`. -/
@[ext]
structure GaussMod (q : Nat) where
  re : ZMod q
  im : ZMod q

instance GaussMod.instMul (q : Nat) : Mul (GaussMod q) :=
  ⟨fun x y => ⟨x.re * y.re - x.im * y.im, x.re * y.im + x.im * y.re⟩⟩

instance GaussMod.instOne (q : Nat) : One (GaussMod q) := ⟨⟨1, 0⟩⟩

instance GaussMod.instMonoid (q : Nat) : Monoid (GaussMod q) where
  mul_assoc x y z := by
    ext
    · show (x.re * y.re - x.im * y.im) * z.re - (x.re * y.im + x.im * y.re) * z.im =
        x.re * (y.re * z.re - y.im * z.im) - x.im * (y.re * z.im + y.im * z.re)
      ring
    · show (x.re * y.re - x.im * y.im) * z.im + (x.re * y.im + x.im * y.re) * z.re =
        x.re * (y.re * z.im + y.im * z.re) + x.im * (y.re * z.re - y.im * z.im)
      ring
  one_mul x := by
    ext
    · show 1 * x.re - 0 * x.im = x.re
      ring
    · show 1 * x.im + 0 * x.re = x.im
      ring
  mul_one x := by
    ext
    · show x.re * 1 - x.im * 0 = x.re
      ring
    · show x.re * 0 + x.im * 1 = x.im
      ring

/-- The residues as pairs. -/
def GaussMod.equivProd (q : Nat) : GaussMod q ≃ ZMod q × ZMod q where
  toFun x := (x.re, x.im)
  invFun x := ⟨x.1, x.2⟩
  left_inv _ := rfl
  right_inv _ := rfl

instance GaussMod.instFintype (q : Nat) [NeZero q] : Fintype (GaussMod q) :=
  Fintype.ofEquiv _ (GaussMod.equivProd q).symm

/-- Square-and-multiply exponentiation of the Gaussian residue `br + bi * i`
modulo `N`, with accumulator `ar + ai * i`. -/
def gaussPowAux (N : Nat) : Nat → Nat → Nat → Nat → Nat → Nat → Nat × Nat
  | 0, _, _, _, ar, ai => (ar, ai)
  | fuel + 1, br, bi, e, ar, ai =>
    if e = 0 then (ar, ai)
    else gaussPowAux N fuel ((br * br + (N - bi * bi % N)) % N) ((br * bi + bi * br) % N) (e / 2)
      (if e % 2 = 1 then (ar * br + (N - ai * bi % N)) % N else ar)
      (if e % 2 = 1 then (ar * bi + ai * br) % N else ai)

/-- The power `(br + bi * i) ^ e` modulo `N`. -/
def gaussPow (N br bi e : Nat) : Nat × Nat := gaussPowAux N (e + 1) br bi e 1 0

/-- Checks of a certificate for `N` from the factorisation `L` of `N + 1`:
`g = br + bi * i` has `g ^ (N + 1) = 1` modulo `N`, and for every prime `r`
of `L` the residue `g ^ ((N + 1) / r) - 1` has a component prime to `N`. -/
def gaussCheck (N br bi : Nat) (L : List (Nat × Nat)) : Bool :=
  decide (1 < N) && (certProd L == N + 1) && (gaussPow N br bi (N + 1) == (1, 0)) &&
    L.all fun x =>
      (Nat.gcd (gaussPow N br bi ((N + 1) / x.1)).2 N == 1) ||
      (Nat.gcd ((gaussPow N br bi ((N + 1) / x.1)).1 + N - 1) N == 1)

/-- The Gaussian residue modulo `q` of `a + b * i`. -/
def toGauss (q a b : Nat) : GaussMod q := ⟨(a : ZMod q), (b : ZMod q)⟩

/-- Factorisation of `ecc_p + 1 = 2 ^ 224 * (2 ^ 224 - 1)`. -/
def ecc_p_succ_factors : List (Nat × Nat) :=
  [(2, 224), (3, 1), (5, 1), (17, 1), (29, 1), (43, 1), (113, 1), (127, 1), (257, 1), (449, 1),
   (2689, 1), (5153, 1), (65537, 1), (15790321, 1), (183076097, 1), (54410972897, 1),
   (358429848460993, 1)]

/-! ## Folded residues for tracing the chain -/

/-- The residue `a ^ e % m`, kept folded while the chain is traced. -/
@[irreducible]
def powRes (m a e : Nat) : Nat := a ^ e % m

/-! ## The routines on buffers in memory

The same routines once more, now on buffers in memory: every pointer
argument is a location, every primitive checks the regions it touches and
records itself in a trace.  Offsets are counted in blocks of
`ECC_LIMB_SIZE` limbs, so `scratch + 3*ECC_LIMB_SIZE` is `scratch.add 3`.
The primitives are parameters: the routines are run on numbers and on
symbolic values alike. -/

/-- The buffers of a call: the output `rp`, the inputs and the scratch. -/
inductive Buf where
  | out
  | in1
  | in2
  | scratch
  deriving DecidableEq

/-- A pointer to a block of `ECC_LIMB_SIZE` limbs: a buffer and an offset
in blocks. -/
structure Loc where
  buf : Buf
  off : Nat
  deriving DecidableEq

/-- Pointer arithmetic `l + k*ECC_LIMB_SIZE`. -/
def Loc.add (l : Loc) (k : Nat) : Loc := ⟨l.buf, l.off + k⟩

/-- The primitive operations of a run, with their pointer arguments. -/
inductive Op where
  | sqr (rp ap : Loc)
  | mul (rp ap bp : Loc)
  | sub (rp ap bp : Loc)
  | copy (rp sp : Loc)
  | zero_p (xp : Loc)
  deriving DecidableEq

/-- The primitives of `ecc-internal.h` that the routines call, on values of
type `V`; the zero test returns an `R` and the canonical value. -/
structure Prims (V R : Type) where
  sqr : V → V
  mul : V → V → V
  sub : V → V → V
  zero_p : V → R × V

/-- The primitives on numbers, for the modulus `p`. -/
def natPrims (p : Nat) : Prims Nat Nat :=
  ⟨ecc_mod_sqr p, ecc_mod_mul p, ecc_mod_sub p, ecc_448_zero_p p⟩

/-- The state of a run: the contents of every block (`none` for a block
that holds no value: never written, or clobbered as the high half of a
product), the primitive operations executed so far, the values written by
the statements of the chain so far, and whether the `unsigned` counter of
`ecc_mod_pow_2k` ever wrapped below zero. -/
structure Machine (V : Type) where
  mem : Loc → Option V
  ops : List Op
  written : List V
  wrapped : Bool

/-- Store into one block. -/
def write {V : Type} (m : Loc → Option V) (l : Loc) (x : Option V) : Loc → Option V :=
  fun l' => if l' = l then x else m l'

/-- The `blocks` blocks from `l` lie inside the scratch of `itch` limbs
(no bound is put on the other buffers). -/
def scratch_ok (itch : Nat) (l : Loc) (blocks : Nat) : Bool :=
  decide (l.buf ≠ Buf.scratch) || decide ((l.off + blocks) * ECC_LIMB_SIZE ≤ itch)

/-- The region of `dn` blocks at `d` meets the region of `sn` blocks at `s`. -/
def overlaps (d : Loc) (dn : Nat) (s : Loc) (sn : Nat) : Bool :=
  decide (d.buf = s.buf) && decide (d.off < s.off + sn) && decide (s.off < d.off + dn)

/-- The call `ecc_mod_sqr (m, rp, ap)`: the destination takes two blocks (the
product before reduction), the result is left in the low one. -/
def ecc_mod_sqr_at {V R : Type} (P : Prims V R) (itch : Nat) (rp ap : Loc)
    (s : Machine V) : Option (Machine V) :=
  if scratch_ok itch rp 2 && scratch_ok itch ap 1 && !overlaps rp 2 ap 1 then
    match s.mem ap with
    | some x =>
      some { s with
        mem := write (write s.mem rp (some (P.sqr x))) (rp.add 1) none
        ops := s.ops ++ [Op.sqr rp ap] }
    | none => none
  else none

/-- The call `ecc_mod_mul (m, rp, ap, bp)`. -/
def ecc_mod_mul_at {V R : Type} (P : Prims V R) (itch : Nat) (rp ap bp : Loc)
    (s : Machine V) : Option (Machine V) :=
  if scratch_ok itch rp 2 && scratch_ok itch ap 1 && scratch_ok itch bp 1 &&
      !overlaps rp 2 ap 1 && !overlaps rp 2 bp 1 then
    match s.mem ap, s.mem bp with
    | some x, some y =>
      some { s with
        mem := write (write s.mem rp (some (P.mul x y))) (rp.add 1) none
        ops := s.ops ++ [Op.mul rp ap bp] }
    | _, _ => none
  else none

/-- The call `ecc_mod_sub (m, rp, ap, bp)`: one block is written. -/
def ecc_mod_sub_at {V R : Type} (P : Prims V R) (itch : Nat) (rp ap bp : Loc)
    (s : Machine V) : Option (Machine V) :=
  if scratch_ok itch rp 1 && scratch_ok itch ap 1 && scratch_ok itch bp 1 &&
      !overlaps rp 1 ap 1 && !overlaps rp 1 bp 1 then
    match s.mem ap, s.mem bp with
    | some x, some y =>
      some { s with
        mem := write s.mem rp (some (P.sub x y))
        ops := s.ops ++ [Op.sub rp ap bp] }
    | _, _ => none
  else none

/-- The call `mpn_copyi (rp, sp, ECC_LIMB_SIZE)`. -/
def mpn_copyi_at {V : Type} (itch : Nat) (rp sp : Loc) (s : Machine V) : Option (Machine V) :=
  if scratch_ok itch rp 1 && scratch_ok itch sp 1 && !overlaps rp 1 sp 1 then
    match s.mem sp with
    | some x => some { s with mem := write s.mem rp (some x), ops := s.ops ++ [Op.copy rp sp] }
    | none => none
  else none

/-- The call `ecc_448_zero_p (p, xp)`: the block is canonicalised in place. -/
def ecc_448_zero_p_at {V R : Type} (P : Prims V R) (itch : Nat) (xp : Loc)
    (s : Machine V) : Option (R × Machine V) :=
  if scratch_ok itch xp 1 then
    match s.mem xp with
    | some x =>
      some ((P.zero_p x).1,
        { s with mem := write s.mem xp (some (P.zero_p x).2), ops := s.ops ++ [Op.zero_p xp] })
    | none => none
  else none

/-- The statement `k -= d` on the `unsigned` counter, recording a wrap. -/
def unsigned_sub_at {V : Type} (k d : Nat) (s : Machine V) : Nat × Machine V :=
  (unsigned_sub k d, { s with wrapped := s.wrapped || decide (k < d) })

/-- The loop of `ecc_mod_pow_2k` in memory. -/
def ecc_mod_pow_2k_loop_at {V R : Type} (P : Prims V R) (itch : Nat) (rp tp : Loc) :
    Nat → Nat → Machine V → Option (Machine V)
  | 0, _, _ => none
  | fuel + 1, k, s =>
    if k > 0 then
      (ecc_mod_sqr_at P itch tp rp s).bind fun s =>
      (ecc_mod_sqr_at P itch rp tp s).bind fun s =>
      ecc_mod_pow_2k_loop_at P itch rp tp fuel (unsigned_sub_at k 2 s).1 (unsigned_sub_at k 2 s).2
    else
      some s

/-- The function `ecc_mod_pow_2k (m, rp, xp, k, tp)` in memory. -/
def ecc_mod_pow_2k_at {V R : Type} (P : Prims V R) (itch : Nat) (rp xp : Loc) (k : Nat)
    (tp : Loc) (s : Machine V) : Option (Machine V) :=
  if k &&& 1 ≠ 0 then
    (ecc_mod_sqr_at P itch rp xp s).bind fun s =>
    ecc_mod_pow_2k_loop_at P itch rp tp POW_2K_FUEL (unsigned_sub_at k 1 s).1
      (unsigned_sub_at k 1 s).2
  else
    (ecc_mod_sqr_at P itch tp xp s).bind fun s =>
    (ecc_mod_sqr_at P itch rp tp s).bind fun s =>
    ecc_mod_pow_2k_loop_at P itch rp tp POW_2K_FUEL (unsigned_sub_at k 2 s).1
      (unsigned_sub_at k 2 s).2

/-- A statement of `ecc_mod_pow_446m224m1`. -/
inductive Stmt where
  | sqr (rp ap : Loc)
  | mul (rp ap bp : Loc)
  | pow_2k (rp xp : Loc) (k : Nat) (tp : Loc)
  deriving DecidableEq

/-- The destination of a statement. -/
def Stmt.dst : Stmt → Loc
  | Stmt.sqr rp _ => rp
  | Stmt.mul rp _ _ => rp
  | Stmt.pow_2k rp _ _ _ => rp

/-- The body of `ecc_mod_pow_446m224m1 (p, rp, ap, scratch)`, statement by
statement. -/
def ecc_mod_pow_446m224m1_stmts (rp ap scratch : Loc) : List Stmt :=
  let t0 := scratch
  let t1 := scratch.add 3
  let t2 := scratch.add 6
  [ Stmt.sqr rp ap,               -- a^2
    Stmt.mul t0 ap rp,            -- a^3
    Stmt.sqr rp t0,               -- a^6
    Stmt.mul t0 ap rp,            -- a^{2^3-1}
    Stmt.pow_2k rp t0 3 t2,       -- a^{2^6-2^3}
    Stmt.mul t1 t0 rp,            -- a^{2^6-1}
    Stmt.pow_2k rp t1 3 t2,       -- a^{2^9-2^3}
    Stmt.mul t1 t0 rp,            -- a^{2^9-1}
    Stmt.pow_2k t0 t1 9 t2,       -- a^{2^18-2^9}
    Stmt.mul rp t1 t0,            -- a^{2^18-1}
    Stmt.sqr t1 rp,               -- a^{2^19-2}
    Stmt.mul t0 ap t1,            -- a^{2^19-1}
    Stmt.pow_2k t1 t0 18 t2,      -- a^{2^37-2^18}
    Stmt.mul t0 rp t1,            -- a^{2^37-1}
    Stmt.pow_2k t1 t0 37 t2,      -- a^{2^74-2^37}
    Stmt.mul rp t0 t1,            -- a^{2^74-1}
    Stmt.pow_2k t1 rp 37 t2,      -- a^{2^111-2^37}
    Stmt.mul rp t0 t1,            -- a^{2^111-1}
    Stmt.pow_2k t1 rp 111 t2,     -- a^{2^222-2^111}
    Stmt.mul t0 rp t1,            -- a^{2^222-1}
    Stmt.sqr t1 t0,               -- a^{2^223-2}
    Stmt.mul rp ap t1,            -- a^{2^223-1}
    Stmt.pow_2k t1 rp 223 t2,     -- a^{2^446-2^223}
    Stmt.mul rp t0 t1 ]           -- a^{2^446-2^222-1}

/-- Run one statement and record the value it left at its destination. -/
def exec_stmt {V R : Type} (P : Prims V R) (itch : Nat) (st : Stmt) (s : Machine V) :
    Option (Machine V) :=
  (match st with
    | Stmt.sqr rp ap => ecc_mod_sqr_at P itch rp ap s
    | Stmt.mul rp ap bp => ecc_mod_mul_at P itch rp ap bp s
    | Stmt.pow_2k rp xp k tp => ecc_mod_pow_2k_at P itch rp xp k tp s).bind fun s =>
  match s.mem st.dst with
  | some x => some { s with written := s.written ++ [x] }
  | none => none

/-- Run statements in program order. -/
def exec_stmts {V R : Type} (P : Prims V R) (itch : Nat) : List Stmt → Machine V →
    Option (Machine V)
  | [], s => some s
  | st :: rest, s => (exec_stmt P itch st s).bind fun s => exec_stmts P itch rest s

/-- The function `ecc_mod_pow_446m224m1 (p, rp, ap, scratch)` in memory. -/
def ecc_mod_pow_446m224m1_at {V R : Type} (P : Prims V R) (itch : Nat) (rp ap scratch : Loc)
    (s : Machine V) : Option (Machine V) :=
  exec_stmts P itch (ecc_mod_pow_446m224m1_stmts rp ap scratch) s

/-- The constant `ECC_448_INV_ITCH`, in limbs. -/
def ECC_448_INV_ITCH : Nat := 9 * ECC_LIMB_SIZE

/-- The constant `ECC_448_SQRT_ITCH`, in limbs. -/
def ECC_448_SQRT_ITCH : Nat := 13 * ECC_LIMB_SIZE

/-- The function `ecc_448_inv (p, rp, ap, scratch)` in memory. -/
def ecc_448_inv_at {V R : Type} (P : Prims V R) (itch : Nat) (rp ap scratch : Loc)
    (s : Machine V) : Option (Machine V) :=
  let t0 := scratch
  (ecc_mod_pow_446m224m1_at P itch rp ap scratch s).bind fun s =>
  (ecc_mod_sqr_at P itch t0 rp s).bind fun s =>
  (ecc_mod_sqr_at P itch rp t0 s).bind fun s =>
  (ecc_mod_mul_at P itch t0 ap rp s).bind fun s =>
  mpn_copyi_at itch rp t0 s

/-- The function `ecc_448_sqrt (p, rp, up, vp, scratch)` in memory: the
returned `int` and the final state. -/
def ecc_448_sqrt_at {V R : Type} (P : Prims V R) (itch : Nat) (rp up vp scratch : Loc)
    (s : Machine V) : Option (R × Machine V) :=
  let u3v := scratch
  let u5v3 := scratch.add 1
  let u5v3p := scratch.add 2
  let u2 := scratch.add 2
  let u3 := scratch.add 3
  let uv := scratch.add 2
  let u2v2 := scratch.add 3
  let scratch_out := scratch.add 4
  let x2 := scratch
  let vx2 := scratch.add 1
  let t0 := scratch.add 2
  (ecc_mod_sqr_at P itch u2 up s).bind fun s =>
  (ecc_mod_mul_at P itch u3 u2 up s).bind fun s =>
  (ecc_mod_mul_at P itch u3v u3 vp s).bind fun s =>
  (ecc_mod_mul_at P itch uv up vp s).bind fun s =>
  (ecc_mod_sqr_at P itch u2v2 uv s).bind fun s =>
  (ecc_mod_mul_at P itch u5v3 u3v u2v2 s).bind fun s =>
  (ecc_mod_pow_446m224m1_at P itch u5v3p u5v3 scratch_out s).bind fun s =>
  (ecc_mod_mul_at P itch rp u5v3p u3v s).bind fun s =>
  (ecc_mod_sqr_at P itch x2 rp s).bind fun s =>
  (ecc_mod_mul_at P itch vx2 x2 vp s).bind fun s =>
  (ecc_mod_sub_at P itch t0 vx2 up s).bind fun s =>
  ecc_448_zero_p_at P itch t0 s

/-- The state at entry: the inputs hold `a` and `b`, every other block is
still unwritten. -/
def Machine.init {V : Type} (a b : Option V) : Machine V :=
  { mem := fun l => if l = ⟨Buf.in1, 0⟩ then a else if l = ⟨Buf.in2, 0⟩ then b else none
    ops := []
    written := []
    wrapped := false }

/-- Symbolic values: the inputs `u` and `v`, the reduced monomials
`u^i * v^j mod p`, and terms over the primitives for anything else. -/
inductive Sym where
  | u
  | v
  | mono (i j : Nat)
  | sqr (x : Sym)
  | mul (x y : Sym)
  | sub (x y : Sym)
  | canon (x : Sym)
  deriving DecidableEq

/-- The exponents of a symbolic value that is a power product. -/
def Sym.exp : Sym → Option (Nat × Nat)
  | Sym.u => some (1, 0)
  | Sym.v => some (0, 1)
  | Sym.mono i j => some (i, j)
  | _ => none

/-- The primitives on symbolic values. -/
def symPrims : Prims Sym Sym where
  sqr x :=
    match x.exp with
    | some (i, j) => Sym.mono (i + i) (j + j)
    | none => Sym.sqr x
  mul x y :=
    match x.exp, y.exp with
    | some (i, j), some (k, l) => Sym.mono (i + k) (j + l)
    | _, _ => Sym.mul x y
  sub x y := Sym.sub x y
  zero_p x := (x, Sym.canon x)

/-- The number a symbolic value stands for, for the modulus `p` and the
inputs `u` and `v`. -/
def Sym.eval (p u v : Nat) : Sym → Nat
  | Sym.u => u
  | Sym.v => v
  | Sym.mono i j => u ^ i * v ^ j % p
  | Sym.sqr x => ecc_mod_sqr p (Sym.eval p u v x)
  | Sym.mul x y => ecc_mod_mul p (Sym.eval p u v x) (Sym.eval p u v y)
  | Sym.sub x y => ecc_mod_sub p (Sym.eval p u v x) (Sym.eval p u v y)
  | Sym.canon x => (ecc_448_zero_p p (Sym.eval p u v x)).2

/-- A state with every value mapped through `h`. -/
def Machine.map {V W : Type} (h : V → W) (s : Machine V) : Machine W :=
  { mem := fun l => (s.mem l).map h
    ops := s.ops
    written := s.written.map h
    wrapped := s.wrapped }

/-- The map `h` on values (with `r` on the results of the zero test) carries
the primitives `P` to the primitives `Q`. -/
def PrimsHom {V R W R' : Type} (P : Prims V R) (Q : Prims W R') (h : V → W) (r : R → R') :
    Prop :=
  (∀ x, h (P.sqr x) = Q.sqr (h x)) ∧
  (∀ x y, h (P.mul x y) = Q.mul (h x) (h y)) ∧
  (∀ x y, h (P.sub x y) = Q.sub (h x) (h y)) ∧
  (∀ x, r (P.zero_p x).1 = (Q.zero_p (h x)).1) ∧
  (∀ x, h (P.zero_p x).2 = (Q.zero_p (h x)).2)

/-- The squarings of one call `ecc_mod_pow_2k (m, rp, xp, k, tp)` in order:
one squaring first when `k` is odd, two when it is even, then two per
iteration of the loop. -/
def pow_2k_trace (rp xp : Loc) (k : Nat) (tp : Loc) : List Op :=
  (if k % 2 = 1 then [Op.sqr rp xp] else [Op.sqr tp xp, Op.sqr rp tp]) ++
    (List.replicate ((k - (if k % 2 = 1 then 1 else 2)) / 2)
      [Op.sqr tp rp, Op.sqr rp tp]).flatten

/-- The primitive operations of one statement of the chain. -/
def Stmt.trace : Stmt → List Op
  | Stmt.sqr rp ap => [Op.sqr rp ap]
  | Stmt.mul rp ap bp => [Op.mul rp ap bp]
  | Stmt.pow_2k rp xp k tp => pow_2k_trace rp xp k tp

/-- The counts `k` of the calls of `ecc_mod_pow_2k` among statements. -/
def pow_2k_counts : List Stmt → List Nat
  | [] => []
  | Stmt.pow_2k _ _ k _ :: rest => k :: pow_2k_counts rest
  | _ :: rest => pow_2k_counts rest

/-- The operation keeps inside a scratch of `itch` limbs, and its
destination (two blocks for a product, one otherwise) does not meet its
operands. -/
def Op.ok (itch : Nat) : Op → Bool
  | Op.sqr rp ap => scratch_ok itch rp 2 && scratch_ok itch ap 1 && !overlaps rp 2 ap 1
  | Op.mul rp ap bp =>
    scratch_ok itch rp 2 && scratch_ok itch ap 1 && scratch_ok itch bp 1 &&
      !overlaps rp 2 ap 1 && !overlaps rp 2 bp 1
  | Op.sub rp ap bp =>
    scratch_ok itch rp 1 && scratch_ok itch ap 1 && scratch_ok itch bp 1 &&
      !overlaps rp 1 ap 1 && !overlaps rp 1 bp 1
  | Op.copy rp sp => scratch_ok itch rp 1 && scratch_ok itch sp 1 && !overlaps rp 1 sp 1
  | Op.zero_p xp => scratch_ok itch xp 1

/-- The output buffer `rp` of a call. -/
def loc_rp : Loc := ⟨Buf.out, 0⟩

/-- The first input buffer of a call (`ap`, or `up`). -/
def loc_ap : Loc := ⟨Buf.in1, 0⟩

/-- The second input buffer of a call (`vp`). -/
def loc_vp : Loc := ⟨Buf.in2, 0⟩

/-- The scratch buffer of a call. -/
def loc_scratch : Loc := ⟨Buf.scratch, 0⟩

/-- The statement is a call of `ecc_mod_sqr`. -/
def Stmt.is_sqr : Stmt → Bool
  | Stmt.sqr _ _ => true
  | _ => false

/-- The statement is a call of `ecc_mod_mul`. -/
def Stmt.is_mul : Stmt → Bool
  | Stmt.mul _ _ _ => true
  | _ => false

/-- The statement is a call of `ecc_mod_pow_2k`. -/
def Stmt.is_pow_2k : Stmt → Bool
  | Stmt.pow_2k _ _ _ _ => true
  | _ => false

/-! ## Primality of the field modulus -/

theorem powmodAux_modEq (m : Nat) : ∀ (fuel b e acc : Nat), e < 2 ^ fuel →
    powmodAux m fuel b e acc ≡ acc * b ^ e [MOD m] := by
  intro fuel
  induction fuel with
  | zero =>
    intro b e acc he
    have : e = 0 := by simpa using he
    subst this
    simp [powmodAux, Nat.ModEq]
  | succ n ih =>
    intro b e acc he
    unfold powmodAux
    have hb : b * b % m ≡ b ^ 2 [MOD m] := by rw [pow_two]; exact Nat.mod_modEq _ _
    split_ifs with h0 h1
    · subst h0; simp [Nat.ModEq]
    · refine (ih _ _ _ (by omega)).trans ?_
      have he2 : b ^ e = b * (b ^ 2) ^ (e / 2) := by
        conv_lhs => rw [← Nat.div_add_mod e 2, h1, pow_succ, pow_mul]
        ring
      rw [he2, ← mul_assoc]
      exact (Nat.mod_modEq _ _).mul (hb.pow _)
    · refine (ih _ _ _ (by omega)).trans ?_
      have h2 : e % 2 = 0 := by omega
      have he2 : b ^ e = (b ^ 2) ^ (e / 2) := by
        conv_lhs => rw [← Nat.div_add_mod e 2, h2, add_zero, pow_mul]
      rw [he2]
      exact (Nat.ModEq.refl acc).mul (hb.pow _)

theorem powmod_modEq (b e m : Nat) : powmod b e m ≡ b ^ e [MOD m] := by
  unfold powmod
  have h : e < 2 ^ (e + 1) := lt_trans (Nat.lt_two_pow e) (by simp [pow_succ])
  simpa using powmodAux_modEq m _ b e 1 h

theorem prime_dvd_certProd {r : Nat} (hr : r.Prime) : ∀ F : List (Nat × Nat),
    (∀ x ∈ F, x.1.Prime) → r ∣ certProd F → ∃ x ∈ F, x.1 = r := by
  intro F
  induction F with
  | nil =>
    intro _ h
    exact absurd (Nat.dvd_one.mp h) hr.ne_one
  | cons x t ih =>
    intro hF h
    rcases (Nat.Prime.dvd_mul hr).mp h with h1 | h2
    · have := hr.dvd_of_dvd_pow h1
      exact ⟨x, List.mem_cons_self _ _,
        ((Nat.prime_dvd_prime_iff_eq hr (hF x (List.mem_cons_self _ _))).mp this).symm⟩
    · obtain ⟨y, hy, hyr⟩ := ih (fun z hz => hF z (List.mem_cons_of_mem _ hz)) h2
      exact ⟨y, List.mem_cons_of_mem _ hy, hyr⟩

theorem lucas_cert (p a : Nat) (F : List (Nat × Nat)) (hF : ∀ x ∈ F, x.1.Prime)
    (h : lucasCheck p a F = true) : p.Prime := by
  simp only [lucasCheck, Bool.and_eq_true, decide_eq_true_eq, beq_iff_eq, List.all_eq_true,
    bne_iff_ne, ne_eq] at h
  obtain ⟨⟨⟨hp, hprod⟩, h1⟩, hd⟩ := h
  have key : ∀ e : Nat, (a : ZMod p) ^ e = 1 ↔ powmod a e p % p = 1 := by
    intro e
    have h0 : ((a : ZMod p) ^ e = 1) ↔ a ^ e ≡ 1 [MOD p] := by
      rw [← ZMod.natCast_eq_natCast_iff]; push_cast; rfl
    rw [h0]
    have h2 := powmod_modEq a e p
    unfold Nat.ModEq at h2 ⊢
    rw [← h2, Nat.mod_eq_of_lt hp]
  refine lucas_primality p (a : ZMod p) ((key _).mpr h1) ?_
  intro q hq hqd
  rw [← hprod] at hqd
  obtain ⟨x, hx, rfl⟩ := prime_dvd_certProd hq F hF hqd
  rw [Ne, key]
  exact hd x hx

theorem prime_15790321 : Nat.Prime 15790321 := by
  refine lucas_cert 15790321 19 [(2, 4), (3, 2), (5, 1), (7, 1), (13, 1), (241, 1)] ?_ (by decide!)
  intro x hx
  simp only [List.mem_cons, List.mem_singleton, List.not_mem_nil, or_false] at hx
  rcases hx with rfl | rfl | rfl | rfl | rfl | rfl <;> norm_num

theorem prime_183076097 : Nat.Prime 183076097 := by
  refine lucas_cert 183076097 3 [(2, 8), (7, 1), (19, 2), (283, 1)] ?_ (by decide!)
  intro x hx
  simp only [List.mem_cons, List.mem_singleton, List.not_mem_nil, or_false] at hx
  rcases hx with rfl | rfl | rfl | rfl <;> norm_num

theorem prime_660071 : Nat.Prime 660071 := by
  refine lucas_cert 660071 11 [(2, 1), (5, 1), (149, 1), (443, 1)] ?_ (by decide!)
  intro x hx
  simp only [List.mem_cons, List.mem_singleton, List.not_mem_nil, or_false] at hx
  rcases hx with rfl | rfl | rfl | rfl <;> norm_num

theorem prime_242906129 : Nat.Prime 242906129 := by
  refine lucas_cert 242906129 3 [(2, 4), (23, 1), (660071, 1)] ?_ (by decide!)
  intro x hx
  simp only [List.mem_cons, List.mem_singleton, List.not_mem_nil, or_false] at hx
  rcases hx with rfl | rfl | rfl
  · norm_num
  · norm_num
  · exact prime_660071

theorem prime_54410972897 : Nat.Prime 54410972897 := by
  refine lucas_cert 54410972897 3 [(2, 5), (7, 1), (242906129, 1)] ?_ (by decide!)
  intro x hx
  simp only [List.mem_cons, List.mem_singleton, List.not_mem_nil, or_false] at hx
  rcases hx with rfl | rfl | rfl
  · norm_num
  · norm_num
  · exact prime_242906129

theorem prime_358429848460993 : Nat.Prime 358429848460993 := by
  refine lucas_cert 358429848460993 15
    [(2, 6), (3, 2), (7, 1), (11, 1), (19, 1), (5693, 1), (74713, 1)] ?_ (by decide!)
  intro x hx
  simp only [List.mem_cons, List.mem_singleton, List.not_mem_nil, or_false] at hx
  rcases hx with rfl | rfl | rfl | rfl | rfl | rfl | rfl <;> norm_num

theorem GaussMod.mul_re {q : Nat} (x y : GaussMod q) :
    (x * y).re = x.re * y.re - x.im * y.im := rfl

theorem GaussMod.mul_im {q : Nat} (x y : GaussMod q) :
    (x * y).im = x.re * y.im + x.im * y.re := rfl

theorem GaussMod.one_re {q : Nat} : (1 : GaussMod q).re = 1 := rfl

theorem GaussMod.one_im {q : Nat} : (1 : GaussMod q).im = 0 := rfl

theorem GaussMod.card_eq {q : Nat} [NeZero q] : Fintype.card (GaussMod q) = q * q := by
  rw [Fintype.card_congr (GaussMod.equivProd q), Fintype.card_prod, ZMod.card]

theorem cast_mod_of_dvd {q N : Nat} (h : q ∣ N) (a : Nat) :
    ((a % N : Nat) : ZMod q) = (a : ZMod q) := by
  have hN : (N : ZMod q) = 0 := (ZMod.natCast_zmod_eq_zero_iff_dvd N q).mpr h
  conv_rhs => rw [← Nat.mod_add_div a N]
  push_cast
  rw [hN]
  ring

theorem cast_neg_of_dvd {q N : Nat} (h : q ∣ N) (hN : 0 < N) (a : Nat) :
    ((N - a % N : Nat) : ZMod q) = - (a : ZMod q) := by
  have hN0 : (N : ZMod q) = 0 := (ZMod.natCast_zmod_eq_zero_iff_dvd N q).mpr h
  rw [Nat.cast_sub (Nat.mod_lt a hN).le, cast_mod_of_dvd h, hN0]
  ring

theorem toGauss_mul {q N : Nat} (h : q ∣ N) (hN : 0 < N) (ar ai br bi : Nat) :
    toGauss q ((ar * br + (N - ai * bi % N)) % N) ((ar * bi + ai * br) % N) =
      toGauss q ar ai * toGauss q br bi := by
  ext
  · simp only [toGauss, GaussMod.mul_re]
    rw [cast_mod_of_dvd h, Nat.cast_add, cast_neg_of_dvd h hN]
    push_cast
    ring
  · simp only [toGauss, GaussMod.mul_im]
    rw [cast_mod_of_dvd h]
    push_cast
    ring

theorem gaussPowAux_eq {q N : Nat} (h : q ∣ N) (hN : 0 < N) :
    ∀ (fuel br bi e ar ai : Nat), e < 2 ^ fuel →
      toGauss q (gaussPowAux N fuel br bi e ar ai).1 (gaussPowAux N fuel br bi e ar ai).2 =
        toGauss q ar ai * toGauss q br bi ^ e := by
  intro fuel
  induction fuel with
  | zero =>
    intro br bi e ar ai he
    have : e = 0 := by simpa using he
    subst this
    simp [gaussPowAux]
  | succ n ih =>
    intro br bi e ar ai he
    unfold gaussPowAux
    split_ifs with h0 h1
    · subst h0; simp
    · rw [ih _ _ _ _ _ (by omega), toGauss_mul h hN, toGauss_mul h hN]
      conv_rhs => rw [← Nat.div_add_mod e 2, h1, pow_succ, pow_mul, pow_two]
      rw [mul_assoc]
      congr 1
      exact (((Commute.refl _).mul_right (Commute.refl _)).pow_right _).eq
    · rw [ih _ _ _ _ _ (by omega), toGauss_mul h hN]
      have h2 : e % 2 = 0 := by omega
      conv_rhs => rw [← Nat.div_add_mod e 2, h2, add_zero, pow_mul, pow_two]

theorem gaussPow_eq {q N : Nat} (h : q ∣ N) (hN : 0 < N) (br bi e : Nat) :
    toGauss q (gaussPow N br bi e).1 (gaussPow N br bi e).2 = toGauss q br bi ^ e := by
  unfold gaussPow
  have he : e < 2 ^ (e + 1) := lt_trans (Nat.lt_two_pow e) (by simp [pow_succ])
  rw [gaussPowAux_eq h hN _ _ _ _ _ _ he]
  have : toGauss q 1 0 = 1 := by ext <;> simp [toGauss, GaussMod.one_re, GaussMod.one_im]
  rw [this, one_mul]

theorem gauss_cert (N br bi : Nat) (L : List (Nat × Nat)) (hL : ∀ x ∈ L, x.1.Prime)
    (h : gaussCheck N br bi L = true) : N.Prime := by
  simp only [gaussCheck, Bool.and_eq_true, decide_eq_true_eq, beq_iff_eq, List.all_eq_true,
    Bool.or_eq_true] at h
  obtain ⟨⟨⟨hN, hprod⟩, h1⟩, hd⟩ := h
  by_contra hnp
  have hq : (Nat.minFac N).Prime := Nat.minFac_prime (by omega)
  have hqN : Nat.minFac N ∣ N := Nat.minFac_dvd N
  have hsq : Nat.minFac N ^ 2 ≤ N := Nat.minFac_sq_le_self (by omega) hnp
  generalize Nat.minFac N = q at hq hqN hsq
  haveI : NeZero q := ⟨hq.ne_zero⟩
  have hN0 : (N : ZMod q) = 0 := (ZMod.natCast_zmod_eq_zero_iff_dvd N q).mpr hqN
  have hpow := fun e => gaussPow_eq hqN (by omega : 0 < N) br bi e
  have hone : toGauss q br bi ^ (N + 1) = 1 := by
    rw [← hpow, h1]
    ext <;> simp [toGauss, GaussMod.one_re, GaussMod.one_im]
  have hne : ∀ r : Nat, r.Prime → r ∣ N + 1 → toGauss q br bi ^ ((N + 1) / r) ≠ 1 := by
    intro r hr hrd heq
    rw [← hprod] at hrd
    obtain ⟨x, hx, rfl⟩ := prime_dvd_certProd hr L hL hrd
    rw [← hpow] at heq
    have hre : (((gaussPow N br bi ((N + 1) / x.1)).1 : Nat) : ZMod q) = 1 := by
      have := congrArg GaussMod.re heq
      simpa [toGauss, GaussMod.one_re] using this
    have him : (((gaussPow N br bi ((N + 1) / x.1)).2 : Nat) : ZMod q) = 0 := by
      have := congrArg GaussMod.im heq
      simpa [toGauss, GaussMod.one_im] using this
    have hcop : ∀ y : Nat, (y : ZMod q) = 0 → Nat.gcd y N = 1 → False := by
      intro y hy hg
      have hqy : q ∣ y := (ZMod.natCast_zmod_eq_zero_iff_dvd y q).mp hy
      have : q ∣ 1 := hg ▸ Nat.dvd_gcd hqy hqN
      exact hq.ne_one (Nat.dvd_one.mp this)
    rcases hd x hx with hg | hg
    · exact hcop _ him hg
    · refine hcop _ ?_ hg
      rw [Nat.add_sub_assoc (by omega : 1 ≤ N), Nat.cast_add, Nat.cast_sub (by omega : 1 ≤ N),
        hre, hN0]
      simp
  have hord : orderOf (toGauss q br bi) = N + 1 :=
    orderOf_eq_of_pow_and_pow_div_prime (Nat.succ_pos N) hone hne
  have hcard : orderOf (toGauss q br bi) ≤ q * q := by
    rw [← GaussMod.card_eq]
    exact orderOf_le_card_univ
  rw [hord] at hcard
  nlinarith

theorem ecc_p_succ_factors_prime : ∀ x ∈ ecc_p_succ_factors, x.1.Prime := by
  intro x hx
  simp only [ecc_p_succ_factors, List.mem_cons, List.mem_singleton, List.not_mem_nil,
    or_false] at hx
  rcases hx with rfl | rfl | rfl | rfl | rfl | rfl | rfl | rfl | rfl | rfl | rfl | rfl | rfl |
    rfl | rfl | rfl | rfl
  · norm_num
  · norm_num
  · norm_num
  · norm_num
  · norm_num
  · norm_num
  · norm_num
  · norm_num
  · norm_num
  · norm_num
  · norm_num
  · norm_num
  · norm_num
  · exact prime_15790321
  · exact prime_183076097
  · exact prime_54410972897
  · exact prime_358429848460993

theorem ecc_p_check : gaussCheck ecc_p
    111821342199324137007588278136616082208252517028818163120229261412401896641035503490214828261334853220013674532591328824777461233594682
    167732013298986205511382417204924123312378775543227244680343892118602844961553255235322242392002279830020511798886993237166191850392024
    ecc_p_succ_factors = true := by
  decide!

theorem ecc_p_prime : Nat.Prime ecc_p :=
  gauss_cert ecc_p _ _ ecc_p_succ_factors ecc_p_succ_factors_prime ecc_p_check

/-! ## The squaring engine and the addition chain -/

theorem ecc_p_eq : ecc_p = 2 ^ 448 - 2 ^ 224 - 1 := rfl

theorem unsigned_sub_eq (k d : Nat) (hd : d ≤ k) (hk : k < UINT_RANGE) :
    unsigned_sub k d = k - d := by
  unfold unsigned_sub
  have hd2 : d % UINT_RANGE = d := Nat.mod_eq_of_lt (by omega)
  rw [hd2]
  have : k + (UINT_RANGE - d) = (k - d) + UINT_RANGE := by omega
  rw [this, Nat.add_mod_right, Nat.mod_eq_of_lt (by omega)]

theorem sqr_pow (m a e : Nat) : ecc_mod_sqr m (a ^ e % m) = a ^ (e * 2) % m := by
  unfold ecc_mod_sqr
  rw [← Nat.mul_mod, ← pow_two, ← pow_mul]

theorem mul_pow_pow (m a e f : Nat) :
    ecc_mod_mul m (a ^ e % m) (a ^ f % m) = a ^ (e + f) % m := by
  unfold ecc_mod_mul
  rw [← Nat.mul_mod, ← pow_add]

theorem sqr_raw (m a : Nat) : ecc_mod_sqr m a = a ^ 2 % m := by
  unfold ecc_mod_sqr
  rw [pow_two]

theorem mul_raw_pow (m a f : Nat) : ecc_mod_mul m a (a ^ f % m) = a ^ (f + 1) % m := by
  unfold ecc_mod_mul
  rw [Nat.mul_mod, Nat.mod_mod, ← Nat.mul_mod, pow_succ, mul_comm]

theorem sqr_sqr_raw (m a : Nat) : ecc_mod_sqr m (ecc_mod_sqr m a) = a ^ 4 % m := by
  rw [sqr_raw m a, sqr_pow]

theorem pow_2k_loop_eq (m : Nat) : ∀ (fuel k rp tp : Nat), k % 2 = 0 → k < UINT_RANGE →
    k / 2 < fuel → rp % m = rp →
    ecc_mod_pow_2k_loop m fuel k rp tp =
      some (rp ^ 2 ^ k % m, if k = 0 then tp else rp ^ 2 ^ (k - 1) % m) := by
  intro fuel
  induction fuel with
  | zero => intro k rp tp _ _ h; omega
  | succ n ih =>
    intro k rp tp hk2 hk hf hrp
    unfold ecc_mod_pow_2k_loop
    by_cases hk0 : k = 0
    · subst hk0
      simp [hrp]
    · have hpos : k > 0 := Nat.pos_of_ne_zero hk0
      simp only [hpos, if_true, hk0, if_false]
      rw [unsigned_sub_eq k 2 (by omega) hk]
      have h1 : ecc_mod_sqr m rp = rp ^ 2 % m := sqr_raw m rp
      have h2 : ecc_mod_sqr m (ecc_mod_sqr m rp) = rp ^ 4 % m := sqr_sqr_raw m rp
      rw [h2, h1, ih (k - 2) _ _ (by omega) (by omega) (by omega) (Nat.mod_mod _ _)]
      have e1 : (rp ^ 4 % m) ^ 2 ^ (k - 2) % m = rp ^ 2 ^ k % m := by
        rw [← Nat.pow_mod, ← pow_mul]
        congr 2
        have : k = (k - 2) + 2 := by omega
        conv_rhs => rw [this, pow_add]
        ring
      rw [e1]
      by_cases hk2' : k - 2 = 0
      · have : k = 2 := by omega
        subst this
        simp
      · simp only [hk2', if_false]
        have e2 : (rp ^ 4 % m) ^ 2 ^ (k - 2 - 1) % m = rp ^ 2 ^ (k - 1) % m := by
          rw [← Nat.pow_mod, ← pow_mul]
          congr 2
          have : k - 1 = (k - 2 - 1) + 2 := by omega
          conv_rhs => rw [this, pow_add]
          ring
        rw [e2]

theorem pow_2k_eq (m xp k tp : Nat) (hk1 : 1 ≤ k) (hk : k < UINT_RANGE) :
    ecc_mod_pow_2k m xp k tp =
      some (xp ^ 2 ^ k % m, if k = 1 then tp else xp ^ 2 ^ (k - 1) % m) := by
  have hU : UINT_RANGE = 2 ^ 32 := rfl
  have hF : POW_2K_FUEL = 2 ^ 31 + 1 := rfl
  unfold ecc_mod_pow_2k
  rw [Nat.and_one_is_mod]
  by_cases hodd : k % 2 = 1
  · have hne : k % 2 ≠ 0 := by omega
    simp only [ne_eq, hne, not_false_eq_true, if_true]
    rw [unsigned_sub_eq k 1 hk1 hk, sqr_raw,
      pow_2k_loop_eq m _ (k - 1) _ _ (by omega) (by omega) (by omega) (Nat.mod_mod _ _)]
    have e1 : (xp ^ 2 % m) ^ 2 ^ (k - 1) % m = xp ^ 2 ^ k % m := by
      rw [← Nat.pow_mod, ← pow_mul]
      congr 2
      have : k = (k - 1) + 1 := by omega
      conv_rhs => rw [this, pow_add]
      ring
    rw [e1]
    by_cases h1 : k = 1
    · subst h1; simp
    · have h10 : k - 1 ≠ 0 := by omega
      simp only [h1, h10, if_false]
      have e2 : (xp ^ 2 % m) ^ 2 ^ (k - 1 - 1) % m = xp ^ 2 ^ (k - 1) % m := by
        rw [← Nat.pow_mod, ← pow_mul]
        congr 2
        have : k - 1 = (k - 1 - 1) + 1 := by omega
        conv_rhs => rw [this, pow_add]
        ring
      rw [e2]
  · have he : k % 2 = 0 := by omega
    simp only [ne_eq, he, not_true_eq_false, if_false]
    rw [unsigned_sub_eq k 2 (by omega) hk]
    have h1 : ecc_mod_sqr m xp = xp ^ 2 % m := sqr_raw m xp
    have h2 : ecc_mod_sqr m (ecc_mod_sqr m xp) = xp ^ 4 % m := sqr_sqr_raw m xp
    rw [h2, h1,
      pow_2k_loop_eq m _ (k - 2) _ _ (by omega) (by omega) (by omega) (Nat.mod_mod _ _)]
    have e1 : (xp ^ 4 % m) ^ 2 ^ (k - 2) % m = xp ^ 2 ^ k % m := by
      rw [← Nat.pow_mod, ← pow_mul]
      congr 2
      have : k = (k - 2) + 2 := by omega
      conv_rhs => rw [this, pow_add]
      ring
    rw [e1]
    have hk1' : k ≠ 1 := by omega
    simp only [hk1', if_false]
    by_cases hk2' : k - 2 = 0
    · have : k = 2 := by omega
      subst this
      simp
    · simp only [hk2', if_false]
      have e2 : (xp ^ 4 % m) ^ 2 ^ (k - 2 - 1) % m = xp ^ 2 ^ (k - 1) % m := by
        rw [← Nat.pow_mod, ← pow_mul]
        congr 2
        have : k - 1 = (k - 2 - 1) + 2 := by omega
        conv_rhs => rw [this, pow_add]
        ring
      rw [e2]

theorem powRes_eq (m a e : Nat) : powRes m a e = a ^ e % m := by
  unfold powRes; rfl

theorem sqr_powRes (m a e : Nat) : ecc_mod_sqr m (powRes m a e) = powRes m a (e * 2) := by
  rw [powRes_eq, powRes_eq, sqr_pow]

theorem mul_powRes (m a e f : Nat) :
    ecc_mod_mul m (powRes m a e) (powRes m a f) = powRes m a (e + f) := by
  rw [powRes_eq, powRes_eq, powRes_eq, mul_pow_pow]

theorem pow_2k_powRes (m a e k tp : Nat) (hk1 : 1 ≤ k) (hk : k < UINT_RANGE) :
    ecc_mod_pow_2k m (powRes m a e) k tp =
      some (powRes m a (e * 2 ^ k), if k = 1 then tp else powRes m a (e * 2 ^ (k - 1))) := by
  simp only [powRes_eq]
  rw [pow_2k_eq m _ k tp hk1 hk, ← Nat.pow_mod, ← pow_mul, ← Nat.pow_mod, ← pow_mul]

theorem mul_raw_powRes (m a f : Nat) :
    ecc_mod_mul m a (powRes m a f) = powRes m a (f + 1) := by
  rw [powRes_eq, powRes_eq, mul_raw_pow]

theorem pow_2k_bind {β : Type} (m a e k tp : Nat) (f : Nat × Nat → Option β) (hk2 : 2 ≤ k)
    (hk : k < UINT_RANGE) :
    (ecc_mod_pow_2k m (powRes m a e) k tp).bind f =
      f (powRes m a (e * 2 ^ k), powRes m a (e * 2 ^ (k - 1))) := by
  rw [pow_2k_powRes m a e k tp (by omega) hk, Option.some_bind, if_neg (by omega)]

theorem pow_446m224m1_trace (p a t2 : Nat) :
    ecc_mod_pow_446m224m1 p a t2 = some (powRes p a (2 ^ 446 - 2 ^ 222 - 1)) := by
  have hU : UINT_RANGE = 2 ^ 32 := rfl
  have h1 : ecc_mod_sqr p a = powRes p a 2 := by rw [powRes_eq, sqr_raw]
  unfold ecc_mod_pow_446m224m1
  simp only [h1, mul_raw_powRes, sqr_powRes, Nat.reduceMul, Nat.reduceAdd, Option.bind_eq_bind]
  -- a^{2^6-2^3}, a^{2^6-1}
  rw [pow_2k_bind p a 7 3 _ _ (by norm_num) (by norm_num [hU])]
  dsimp only
  rw [mul_powRes, show (7 + 7 * 2 ^ 3 : Nat) = 2 ^ 6 - 1 from by norm_num]
  -- a^{2^9-2^3}, a^{2^9-1}
  rw [pow_2k_bind p a (2 ^ 6 - 1) 3 _ _ (by norm_num) (by norm_num [hU])]
  dsimp only
  rw [mul_powRes, show (7 + (2 ^ 6 - 1) * 2 ^ 3 : Nat) = 2 ^ 9 - 1 from by norm_num]
  -- a^{2^18-2^9}, a^{2^18-1}, a^{2^19-2}, a^{2^19-1}
  rw [pow_2k_bind p a (2 ^ 9 - 1) 9 _ _ (by norm_num) (by norm_num [hU])]
  dsimp only
  rw [mul_powRes, show (2 ^ 9 - 1 + (2 ^ 9 - 1) * 2 ^ 9 : Nat) = 2 ^ 18 - 1 from by norm_num,
    sqr_powRes, mul_raw_powRes, show ((2 ^ 18 - 1) * 2 + 1 : Nat) = 2 ^ 19 - 1 from by norm_num]
  -- a^{2^37-2^18}, a^{2^37-1}
  rw [pow_2k_bind p a (2 ^ 19 - 1) 18 _ _ (by norm_num) (by norm_num [hU])]
  dsimp only
  rw [mul_powRes, show (2 ^ 18 - 1 + (2 ^ 19 - 1) * 2 ^ 18 : Nat) = 2 ^ 37 - 1 from by norm_num]
  -- a^{2^74-2^37}, a^{2^74-1}
  rw [pow_2k_bind p a (2 ^ 37 - 1) 37 _ _ (by norm_num) (by norm_num [hU])]
  dsimp only
  rw [mul_powRes, show (2 ^ 37 - 1 + (2 ^ 37 - 1) * 2 ^ 37 : Nat) = 2 ^ 74 - 1 from by norm_num]
  -- a^{2^111-2^37}, a^{2^111-1}
  rw [pow_2k_bind p a (2 ^ 74 - 1) 37 _ _ (by norm_num) (by norm_num [hU])]
  dsimp only
  rw [mul_powRes, show (2 ^ 37 - 1 + (2 ^ 74 - 1) * 2 ^ 37 : Nat) = 2 ^ 111 - 1 from by norm_num]
  -- a^{2^222-2^111}, a^{2^222-1}, a^{2^223-2}, a^{2^223-1}
  rw [pow_2k_bind p a (2 ^ 111 - 1) 111 _ _ (by norm_num) (by norm_num [hU])]
  dsimp only
  rw [mul_powRes, show (2 ^ 111 - 1 + (2 ^ 111 - 1) * 2 ^ 111 : Nat) = 2 ^ 222 - 1 from by norm_num,
    sqr_powRes, mul_raw_powRes, show ((2 ^ 222 - 1) * 2 + 1 : Nat) = 2 ^ 223 - 1 from by norm_num]
  -- a^{2^446-2^223}, a^{2^446-2^222-1}
  rw [pow_2k_bind p a (2 ^ 223 - 1) 223 _ _ (by norm_num) (by norm_num [hU])]
  dsimp only
  rw [mul_powRes, show (2 ^ 222 - 1 + (2 ^ 223 - 1) * 2 ^ 223 : Nat) = 2 ^ 446 - 2 ^ 222 - 1
    from by norm_num]
  rfl

theorem pow_446m224m1_eq (p a t2 : Nat) :
    ecc_mod_pow_446m224m1 p a t2 = some (a ^ (2 ^ 446 - 2 ^ 222 - 1) % p) := by
  rw [pow_446m224m1_trace, powRes_eq]

theorem inv_eq (p a scratch : Nat) :
    ecc_448_inv p a scratch = some (a ^ (2 ^ 448 - 2 ^ 224 - 3) % p) := by
  unfold ecc_448_inv
  rw [pow_446m224m1_trace]
  simp only [Option.bind_eq_bind, Option.some_bind, Option.pure_def, mpn_copyi]
  rw [sqr_powRes, sqr_powRes, mul_raw_powRes, powRes_eq]
  norm_num

theorem fermat_ecc_p (a : Nat) (ha : a % ecc_p ≠ 0) : a ^ (ecc_p - 1) % ecc_p = 1 := by
  have hp := ecc_p_prime
  have hnd : ¬ ecc_p ∣ a := fun h => ha (Nat.mod_eq_zero_of_dvd h)
  have hc : Nat.Coprime a ecc_p := ((Nat.Prime.coprime_iff_not_dvd hp).2 hnd).symm
  have h := Nat.ModEq.pow_totient hc
  rw [Nat.totient_prime hp] at h
  have h1 : 1 % ecc_p = 1 := Nat.mod_eq_of_lt hp.one_lt
  exact (show a ^ (ecc_p - 1) % ecc_p = 1 % ecc_p from h).trans h1

/-! ## The canonical zero test -/

theorem or_eq_zero (a b : Nat) : a ||| b = 0 ↔ a = 0 ∧ b = 0 := by
  constructor
  · intro h
    have hb : ∀ i, a.testBit i = false ∧ b.testBit i = false := by
      intro i
      have := congrArg (fun n => Nat.testBit n i) h
      simpa [Nat.testBit_or] using this
    exact ⟨Nat.eq_of_testBit_eq (by intro i; simp [(hb i).1]),
      Nat.eq_of_testBit_eq (by intro i; simp [(hb i).2])⟩
  · rintro ⟨rfl, rfl⟩
    rfl

theorem or_limbs_eq_zero (xp : Nat) : ∀ (n i w : Nat),
    or_limbs xp n i w = 0 ↔ w = 0 ∧ ∀ j, j < n → limb xp (i + j) = 0 := by
  intro n
  induction n with
  | zero =>
    intro i w
    simp [or_limbs]
  | succ n ih =>
    intro i w
    unfold or_limbs
    rw [ih, or_eq_zero]
    constructor
    · rintro ⟨⟨hw, h0⟩, hr⟩
      refine ⟨hw, fun j hj => ?_⟩
      rcases Nat.eq_zero_or_pos j with rfl | hpos
      · exact h0
      · have := hr (j - 1) (by omega)
        rwa [show i + 1 + (j - 1) = i + j from by omega] at this
    · rintro ⟨hw, hr⟩
      refine ⟨⟨hw, by simpa using hr 0 (Nat.succ_pos n)⟩, fun j hj => ?_⟩
      have := hr (j + 1) (by omega)
      rwa [show i + (j + 1) = i + 1 + j from by omega] at this

theorem limbs_zero_mod (xp : Nat) : ∀ n : Nat, (∀ j, j < n → limb xp j = 0) →
    xp % 2 ^ (GMP_NUMB_BITS * n) = 0 := by
  intro n
  induction n with
  | zero => intro _; simp [Nat.mod_one]
  | succ n ih =>
    intro h
    have h1 := ih (fun j hj => h j (by omega))
    have h2 : limb xp n = 0 := h n (Nat.lt_succ_self n)
    unfold limb at h2
    rw [Nat.mul_succ, pow_add, Nat.mod_mul, h1, h2]
    rfl

theorem or_limbs_zero_iff (xp : Nat) (hx : xp < LIMB_RANGE) :
    or_limbs xp ECC_LIMB_SIZE 0 0 = 0 ↔ xp = 0 := by
  rw [or_limbs_eq_zero]
  constructor
  · rintro ⟨_, h⟩
    have h1 := limbs_zero_mod xp ECC_LIMB_SIZE (fun j hj => by simpa using h j hj)
    unfold LIMB_RANGE at hx
    rwa [Nat.mod_eq_of_lt hx] at h1
  · rintro rfl
    refine ⟨rfl, fun j _ => ?_⟩
    simp [limb]

theorem zero_p_buf (p xp : Nat) (hp : p < LIMB_RANGE) (hx : xp < LIMB_RANGE) :
    (ecc_448_zero_p p xp).2 = if xp < p then xp else xp - p := by
  unfold ecc_448_zero_p mpn_sub_n cnd_add_n
  simp only [Nat.mod_eq_of_lt hp, Nat.mod_eq_of_lt hx]
  split_ifs with h1 h2 h2
  · have e : xp + (LIMB_RANGE - p) < LIMB_RANGE := by omega
    rw [Nat.mod_eq_of_lt e]
    have e2 : xp + (LIMB_RANGE - p) + p = xp + LIMB_RANGE := by omega
    rw [e2, Nat.add_mod_right, Nat.mod_eq_of_lt hx]
  · exact absurd (Nat.succ_ne_zero 0) h2
  · exact absurd rfl h2
  · have e : xp + (LIMB_RANGE - p) = (xp - p) + LIMB_RANGE := by omega
    rw [e, Nat.add_mod_right, Nat.mod_eq_of_lt (by omega)]

theorem zero_p_ret (p xp : Nat) :
    (ecc_448_zero_p p xp).1 =
      if or_limbs (ecc_448_zero_p p xp).2 ECC_LIMB_SIZE 0 0 = 0 then 1 else 0 := rfl

theorem ecc_p_lt_range : ecc_p < LIMB_RANGE := by
  unfold LIMB_RANGE GMP_NUMB_BITS ECC_LIMB_SIZE
  rw [ecc_p_eq]
  norm_num

theorem range_le_two_p : LIMB_RANGE ≤ 2 * ecc_p := by
  unfold LIMB_RANGE GMP_NUMB_BITS ECC_LIMB_SIZE
  rw [ecc_p_eq]
  norm_num

theorem ecc_p_pos : 0 < ecc_p := ecc_p_prime.pos

theorem mod_p_of_lt_two_p (x : Nat) (hx : x < 2 * ecc_p) :
    x % ecc_p = if x < ecc_p then x else x - ecc_p := by
  split_ifs with h
  · exact Nat.mod_eq_of_lt h
  · rw [Nat.mod_eq_sub_mod (by omega), Nat.mod_eq_of_lt (by omega)]

theorem zero_p_buf_mod (xp : Nat) (hx : xp < LIMB_RANGE) :
    (ecc_448_zero_p ecc_p xp).2 = xp % ecc_p := by
  rw [zero_p_buf ecc_p xp ecc_p_lt_range hx,
    mod_p_of_lt_two_p xp (lt_of_lt_of_le hx range_le_two_p)]

theorem zero_p_ret_iff (xp : Nat) (hx : xp < LIMB_RANGE) :
    (ecc_448_zero_p ecc_p xp).1 = 1 ↔ xp % ecc_p = 0 := by
  have hlt : xp % ecc_p < LIMB_RANGE := lt_trans (Nat.mod_lt _ ecc_p_pos) ecc_p_lt_range
  rw [zero_p_ret, zero_p_buf_mod xp hx]
  split_ifs with h
  · simp [(or_limbs_zero_iff _ hlt).mp h]
  · have : xp % ecc_p ≠ 0 := fun h0 => h ((or_limbs_zero_iff _ hlt).mpr h0)
    simp [this]

/-! ## The square root -/

theorem sqrt_eq (p up vp scratch : Nat) :
    ecc_448_sqrt p up vp scratch =
      some ((ecc_448_zero_p p (ecc_mod_sub p (ecc_mod_mul p (ecc_mod_sqr p
          (ecc_mod_mul p
            ((ecc_mod_mul p (ecc_mod_mul p (ecc_mod_mul p (ecc_mod_sqr p up) up) vp)
              (ecc_mod_sqr p (ecc_mod_mul p up vp))) ^ (2 ^ 446 - 2 ^ 222 - 1) % p)
            (ecc_mod_mul p (ecc_mod_mul p (ecc_mod_sqr p up) up) vp))) vp) up)).1,
        ecc_mod_mul p
          ((ecc_mod_mul p (ecc_mod_mul p (ecc_mod_mul p (ecc_mod_sqr p up) up) vp)
            (ecc_mod_sqr p (ecc_mod_mul p up vp))) ^ (2 ^ 446 - 2 ^ 222 - 1) % p)
          (ecc_mod_mul p (ecc_mod_mul p (ecc_mod_sqr p up) up) vp)) := by
  unfold ecc_448_sqrt
  dsimp only
  rw [pow_446m224m1_eq]
  rfl

theorem sqrt_cand_modEq (p up vp : Nat) :
    ecc_mod_mul p
      ((ecc_mod_mul p (ecc_mod_mul p (ecc_mod_mul p (ecc_mod_sqr p up) up) vp)
        (ecc_mod_sqr p (ecc_mod_mul p up vp))) ^ (2 ^ 446 - 2 ^ 222 - 1) % p)
      (ecc_mod_mul p (ecc_mod_mul p (ecc_mod_sqr p up) up) vp) =
    up ^ 3 * vp * (up ^ 5 * vp ^ 3) ^ (2 ^ 446 - 2 ^ 222 - 1) % p := by
  have m := fun a b : Nat => (Nat.mod_modEq (a * b) p)
  have h3 : ecc_mod_mul p (ecc_mod_mul p (ecc_mod_sqr p up) up) vp ≡ up ^ 3 * vp [MOD p] := by
    unfold ecc_mod_mul ecc_mod_sqr
    refine (m _ _).trans (Nat.ModEq.mul_right _ ?_)
    refine (m _ _).trans ?_
    rw [show up ^ 3 = up * up * up from by ring]
    exact Nat.ModEq.mul_right _ (m _ _)
  have h2 : ecc_mod_sqr p (ecc_mod_mul p up vp) ≡ up ^ 2 * vp ^ 2 [MOD p] := by
    unfold ecc_mod_mul ecc_mod_sqr
    refine (m _ _).trans ?_
    rw [show up ^ 2 * vp ^ 2 = up * vp * (up * vp) from by ring]
    exact (m _ _).mul (m _ _)
  have h5 : ecc_mod_mul p (ecc_mod_mul p (ecc_mod_mul p (ecc_mod_sqr p up) up) vp)
      (ecc_mod_sqr p (ecc_mod_mul p up vp)) ≡ up ^ 5 * vp ^ 3 [MOD p] := by
    have e : up ^ 5 * vp ^ 3 = up ^ 3 * vp * (up ^ 2 * vp ^ 2) := by ring
    rw [e]
    exact (Nat.mod_modEq _ p).trans (h3.mul h2)
  have hc : (ecc_mod_mul p (ecc_mod_mul p (ecc_mod_mul p (ecc_mod_sqr p up) up) vp)
      (ecc_mod_sqr p (ecc_mod_mul p up vp))) ^ (2 ^ 446 - 2 ^ 222 - 1) % p ≡
      (up ^ 5 * vp ^ 3) ^ (2 ^ 446 - 2 ^ 222 - 1) [MOD p] :=
    (Nat.mod_modEq _ p).trans (h5.pow _)
  have hx := hc.mul h3
  show _ * _ % p = _
  rw [mul_comm (up ^ 3 * vp)]
  exact hx

theorem mod_sub_eq_zero_iff (p a b : Nat) (hp : 0 < p) :
    ecc_mod_sub p a b % p = 0 ↔ a % p = b % p := by
  unfold ecc_mod_sub
  rw [Nat.mod_mod, ← Nat.dvd_iff_mod_eq_zero, ← ZMod.natCast_zmod_eq_zero_iff_dvd,
    Nat.cast_add, Nat.cast_sub (Nat.mod_lt b hp).le, ZMod.natCast_mod, ZMod.natCast_self]
  rw [show ((a : ZMod p) + (0 - (b : ZMod p)) = 0) ↔ ((a : ZMod p) = (b : ZMod p)) from by
    constructor
    · intro h; linear_combination h
    · intro h; linear_combination h]
  exact ZMod.natCast_eq_natCast_iff a b p

theorem mod_sub_lt (p a b : Nat) (hp : 0 < p) : ecc_mod_sub p a b < p :=
  Nat.mod_lt _ hp

theorem sqrt_ret_iff (up vp x : Nat) :
    (ecc_448_zero_p ecc_p
      (ecc_mod_sub ecc_p (ecc_mod_mul ecc_p (ecc_mod_sqr ecc_p x) vp) up)).1 = 1 ↔
      vp * x ^ 2 % ecc_p = up % ecc_p := by
  rw [zero_p_ret_iff _ (lt_trans (mod_sub_lt _ _ _ ecc_p_pos) ecc_p_lt_range),
    mod_sub_eq_zero_iff _ _ _ ecc_p_pos]
  have : ecc_mod_mul ecc_p (ecc_mod_sqr ecc_p x) vp % ecc_p = vp * x ^ 2 % ecc_p := by
    unfold ecc_mod_mul ecc_mod_sqr
    rw [Nat.mod_mod, Nat.mod_mul_mod, pow_two, mul_comm]
  rw [this]

theorem zero_p_ret_cases (p xp : Nat) :
    (ecc_448_zero_p p xp).1 = 1 ∨ (ecc_448_zero_p p xp).1 = 0 := by
  rw [zero_p_ret]
  split_ifs
  · exact Or.inl rfl
  · exact Or.inr rfl

theorem sqrt_field_core {F : Type} [Field F] (U V Y : F) (e : Nat) (hV : V ≠ 0)
    (hU : Y ^ 2 * V = U) (hF : ∀ z : F, z ≠ 0 → z ^ (4 * e + 2) = 1) :
    V * (U ^ 3 * V * (U ^ 5 * V ^ 3) ^ e) ^ 2 = U := by
  by_cases hY : Y = 0
  · subst hY
    have hU0 : U = 0 := by rw [← hU]; ring
    rw [hU0]
    ring
  · have hZ : Y ^ 5 * V ^ 4 ≠ 0 := mul_ne_zero (pow_ne_zero _ hY) (pow_ne_zero _ hV)
    have hZ2 : (Y ^ 5 * V ^ 4) ^ 2 ≠ 0 := pow_ne_zero _ hZ
    have h1 : U ^ 5 * V ^ 3 = (Y ^ 5 * V ^ 4) ^ 2 := by rw [← hU]; ring
    have h2 := hF _ hZ
    apply mul_right_cancel₀ hZ2
    have h3 : V * (U ^ 3 * V * ((Y ^ 5 * V ^ 4) ^ 2) ^ e) ^ 2 * (Y ^ 5 * V ^ 4) ^ 2 =
        V * (U ^ 3 * V) ^ 2 * (Y ^ 5 * V ^ 4) ^ (4 * e + 2) := by ring
    rw [h1, h3, h2, ← hU]
    ring

theorem sqrt_cand_root_gen (p : Nat) [Fact (Nat.Prime p)] (e : Nat) (he : 4 * e + 2 = p - 1)
    (up vp y : Nat) (hv : vp % p ≠ 0) (hy : y ^ 2 * vp % p = up % p) :
    vp * (up ^ 3 * vp * (up ^ 5 * vp ^ 3) ^ e % p) ^ 2 % p = up % p := by
  have hV : (vp : ZMod p) ≠ 0 := by
    rw [Ne, ZMod.natCast_zmod_eq_zero_iff_dvd]
    exact fun h => hv (Nat.mod_eq_zero_of_dvd h)
  have hU : (y : ZMod p) ^ 2 * (vp : ZMod p) = (up : ZMod p) := by
    have := (ZMod.natCast_eq_natCast_iff (y ^ 2 * vp) up p).mpr hy
    simpa using this
  have hF : ∀ z : ZMod p, z ≠ 0 → z ^ (4 * e + 2) = 1 := by
    intro z hz
    rw [he]
    exact ZMod.pow_card_sub_one_eq_one hz
  have key := sqrt_field_core (up : ZMod p) (vp : ZMod p) (y : ZMod p) e hV hU hF
  refine (ZMod.natCast_eq_natCast_iff _ _ _).mp ?_
  rw [Nat.cast_mul, Nat.cast_pow, ZMod.natCast_mod]
  push_cast
  exact key

theorem sqrt_cand_root (up vp y : Nat) (hv : vp % ecc_p ≠ 0)
    (hy : y ^ 2 * vp % ecc_p = up % ecc_p) :
    vp * (up ^ 3 * vp * (up ^ 5 * vp ^ 3) ^ (2 ^ 446 - 2 ^ 222 - 1) % ecc_p) ^ 2 % ecc_p =
      up % ecc_p :=
  @sqrt_cand_root_gen ecc_p ⟨ecc_p_prime⟩ _ (by rw [ecc_p_eq]; norm_num) up vp y hv hy

theorem sq_root_sign_gen (p : Nat) [Fact (Nat.Prime p)] (vp x y : Nat) (hv : vp % p ≠ 0)
    (hx : x < p) (h : vp * x ^ 2 % p = vp * y ^ 2 % p) :
    x = y % p ∨ x = (p - y % p) % p := by
  have hp : 0 < p := (Fact.out : Nat.Prime p).pos
  have hV : (vp : ZMod p) ≠ 0 := by
    rw [Ne, ZMod.natCast_zmod_eq_zero_iff_dvd]
    exact fun h => hv (Nat.mod_eq_zero_of_dvd h)
  have h1 : (vp : ZMod p) * (x : ZMod p) ^ 2 = (vp : ZMod p) * (y : ZMod p) ^ 2 := by
    have := (ZMod.natCast_eq_natCast_iff _ _ _).mpr h
    simpa using this
  have h2 : (x : ZMod p) ^ 2 = (y : ZMod p) ^ 2 := mul_left_cancel₀ hV h1
  rcases sq_eq_sq_iff_eq_or_eq_neg.mp h2 with h3 | h3
  · left
    have := (ZMod.natCast_eq_natCast_iff _ _ _).mp h3
    rwa [Nat.ModEq, Nat.mod_eq_of_lt hx] at this
  · right
    have h4 : (x : ZMod p) = ((p - y % p : Nat) : ZMod p) := by
      rw [h3, cast_neg_of_dvd (dvd_refl p) hp]
    have := (ZMod.natCast_eq_natCast_iff _ _ _).mp h4
    rwa [Nat.ModEq, Nat.mod_eq_of_lt hx] at this

theorem sq_root_sign (vp x y : Nat) (hv : vp % ecc_p ≠ 0) (hx : x < ecc_p)
    (h : vp * x ^ 2 % ecc_p = vp * y ^ 2 % ecc_p) :
    x = y % ecc_p ∨ x = (ecc_p - y % ecc_p) % ecc_p :=
  @sq_root_sign_gen ecc_p ⟨ecc_p_prime⟩ vp x y hv hx h

theorem neg_one_not_square_gen (p : Nat) [Fact (Nat.Prime p)] (hp3 : p % 4 = 3) (y : Nat) :
    ¬ y ^ 2 * 1 % p = (p - 1) % p := by
  have hp : 0 < p := (Fact.out : Nat.Prime p).pos
  intro h
  have h1 : ((y ^ 2 * 1 : Nat) : ZMod p) = ((p - 1 : Nat) : ZMod p) :=
    (ZMod.natCast_eq_natCast_iff _ _ _).mpr h
  rw [Nat.cast_sub hp, ZMod.natCast_self] at h1
  have h2 : IsSquare (-1 : ZMod p) := ⟨(y : ZMod p), by
    have : (y : ZMod p) ^ 2 = -1 := by
      push_cast at h1
      linear_combination h1
    rw [← this]; ring⟩
  have h3 := ZMod.exists_sq_eq_neg_one_iff.mp h2
  exact h3 hp3

theorem neg_one_not_square (y : Nat) : ¬ y ^ 2 * 1 % ecc_p = (ecc_p - 1) % ecc_p :=
  @neg_one_not_square_gen ecc_p ⟨ecc_p_prime⟩ (by rw [ecc_p_eq]; norm_num) y

theorem sqrt_result (up vp scratch : Nat) :
    ecc_448_sqrt ecc_p up vp scratch =
      some ((ecc_448_zero_p ecc_p (ecc_mod_sub ecc_p (ecc_mod_mul ecc_p (ecc_mod_sqr ecc_p
          (up ^ 3 * vp * (up ^ 5 * vp ^ 3) ^ (2 ^ 446 - 2 ^ 222 - 1) % ecc_p)) vp) up)).1,
        up ^ 3 * vp * (up ^ 5 * vp ^ 3) ^ (2 ^ 446 - 2 ^ 222 - 1) % ecc_p) := by
  rw [sqrt_eq, sqrt_cand_modEq]

theorem sqrt_cand_zero (up vp : Nat) (hv : vp % ecc_p = 0) :
    up ^ 3 * vp * (up ^ 5 * vp ^ 3) ^ (2 ^ 446 - 2 ^ 222 - 1) % ecc_p = 0 := by
  apply Nat.mod_eq_zero_of_dvd
  exact Dvd.dvd.mul_right (Dvd.dvd.mul_left (Nat.dvd_of_mod_eq_zero hv) _) _

theorem sqrt_cand_root_any (up vp y : Nat) (hy : vp * y ^ 2 % ecc_p = up % ecc_p) :
    vp * (up ^ 3 * vp * (up ^ 5 * vp ^ 3) ^ (2 ^ 446 - 2 ^ 222 - 1) % ecc_p) ^ 2 % ecc_p =
      up % ecc_p := by
  by_cases hv : vp % ecc_p = 0
  · rw [sqrt_cand_zero up vp hv, ← hy, Nat.mul_mod, hv, Nat.mul_mod vp, hv]
    simp
  · exact sqrt_cand_root up vp y hv (by rw [mul_comm]; exact hy)

theorem sqrt_cand_ratio_core {F : Type} [Field F] (U V W : F) (e : Nat) (hW : W * V = 1)
    (hF : ∀ z : F, z ≠ 0 → z ^ (4 * e + 2) = 1) :
    U ^ 3 * V * (U ^ 5 * V ^ 3) ^ e = (U * W) ^ (e + 1) := by
  have hV : V ≠ 0 := fun h => by rw [h, mul_zero] at hW; exact zero_ne_one hW
  by_cases hU : U = 0
  · subst hU
    rw [zero_mul, zero_pow (Nat.succ_ne_zero e), zero_pow (by norm_num : 3 ≠ 0)]
    ring
  · have h := hF (U * V) (mul_ne_zero hU hV)
    have h1 : (U * W) ^ (e + 1) * (U * V) ^ (4 * e + 2) =
        U ^ 3 * V * (U ^ 5 * V ^ 3) ^ e * (W * V) ^ (e + 1) := by ring
    rw [h, hW, one_pow, mul_one, mul_one] at h1
    exact h1.symm

theorem sqrt_cand_ratio_gen (p : Nat) [Fact (Nat.Prime p)] (e : Nat) (he : 4 * e + 2 = p - 1)
    (up vp w : Nat) (hw : w * vp % p = 1) :
    up ^ 3 * vp * (up ^ 5 * vp ^ 3) ^ e % p = (up * w) ^ (e + 1) % p := by
  have hp1 : 1 % p = 1 := Nat.mod_eq_of_lt (Fact.out : Nat.Prime p).one_lt
  have hW : (w : ZMod p) * (vp : ZMod p) = 1 := by
    have := (ZMod.natCast_eq_natCast_iff (w * vp) 1 p).mpr (by rw [Nat.ModEq, hw, hp1])
    simpa using this
  have hF : ∀ z : ZMod p, z ≠ 0 → z ^ (4 * e + 2) = 1 := by
    intro z hz
    rw [he]
    exact ZMod.pow_card_sub_one_eq_one hz
  have key := sqrt_cand_ratio_core (up : ZMod p) (vp : ZMod p) (w : ZMod p) e hW hF
  refine (ZMod.natCast_eq_natCast_iff _ _ _).mp ?_
  push_cast
  exact key

theorem sqrt_cand_ratio (up vp w : Nat) (hw : w * vp % ecc_p = 1) :
    up ^ 3 * vp * (up ^ 5 * vp ^ 3) ^ (2 ^ 446 - 2 ^ 222 - 1) % ecc_p =
      (up * w) ^ (2 ^ 446 - 2 ^ 222 - 1 + 1) % ecc_p :=
  @sqrt_cand_ratio_gen ecc_p ⟨ecc_p_prime⟩ _ (by rw [ecc_p_eq]; norm_num) up vp w hw

/-! ## Runs in memory: independence of the values -/

theorem write_map {V W : Type} (h : V → W) (m : Loc → Option V) (l : Loc) (x : Option V) :
    (fun l' => (write m l x l').map h) = write (fun l' => (m l').map h) l (x.map h) := by
  funext l'
  unfold write
  split_ifs <;> rfl

theorem bind_map_comm {α β α' β' : Type} (x : Option α) (f : α → Option β)
    (g : α' → Option β') (ha : α → α') (hb : β → β')
    (hfg : ∀ a, g (ha a) = (f a).map hb) :
    (x.map ha).bind g = (x.bind f).map hb := by
  cases x with
  | none => rfl
  | some a => exact hfg a

theorem sqr_at_map {V R W R' : Type} {P : Prims V R} {Q : Prims W R'} {h : V → W}
    {r : R → R'} (hom : PrimsHom P Q h r) (itch : Nat) (rp ap : Loc) (s : Machine V) :
    ecc_mod_sqr_at Q itch rp ap (s.map h) =
      (ecc_mod_sqr_at P itch rp ap s).map (Machine.map h) := by
  unfold ecc_mod_sqr_at
  split_ifs with c
  · have hm : (s.map h).mem ap = (s.mem ap).map h := rfl
    rw [hm]
    cases hx : s.mem ap with
    | none => rfl
    | some x =>
      simp only [Option.map_some', Machine.map, List.map_append, List.map_cons, List.map_nil]
      rw [write_map, write_map]
      simp only [Option.map_some', Option.map_none', hom.1]
  · rfl

theorem mul_at_map {V R W R' : Type} {P : Prims V R} {Q : Prims W R'} {h : V → W}
    {r : R → R'} (hom : PrimsHom P Q h r) (itch : Nat) (rp ap bp : Loc) (s : Machine V) :
    ecc_mod_mul_at Q itch rp ap bp (s.map h) =
      (ecc_mod_mul_at P itch rp ap bp s).map (Machine.map h) := by
  unfold ecc_mod_mul_at
  split_ifs with c
  · have hm : ∀ l, (s.map h).mem l = (s.mem l).map h := fun _ => rfl
    rw [hm, hm]
    cases hx : s.mem ap with
    | none => rfl
    | some x =>
      cases hy : s.mem bp with
      | none => rfl
      | some y =>
        simp only [Option.map_some', Machine.map, List.map_append, List.map_cons, List.map_nil]
        rw [write_map, write_map]
        simp only [Option.map_some', Option.map_none', hom.2.1]
  · rfl

theorem sub_at_map {V R W R' : Type} {P : Prims V R} {Q : Prims W R'} {h : V → W}
    {r : R → R'} (hom : PrimsHom P Q h r) (itch : Nat) (rp ap bp : Loc) (s : Machine V) :
    ecc_mod_sub_at Q itch rp ap bp (s.map h) =
      (ecc_mod_sub_at P itch rp ap bp s).map (Machine.map h) := by
  unfold ecc_mod_sub_at
  split_ifs with c
  · have hm : ∀ l, (s.map h).mem l = (s.mem l).map h := fun _ => rfl
    rw [hm, hm]
    cases hx : s.mem ap with
    | none => rfl
    | some x =>
      cases hy : s.mem bp with
      | none => rfl
      | some y =>
        simp only [Option.map_some', Machine.map, List.map_append, List.map_cons, List.map_nil]
        rw [write_map]
        simp only [Option.map_some', hom.2.2.1]
  · rfl

theorem copyi_at_map {V W : Type} (h : V → W) (itch : Nat) (rp sp : Loc) (s : Machine V) :
    mpn_copyi_at itch rp sp (s.map h) = (mpn_copyi_at itch rp sp s).map (Machine.map h) := by
  unfold mpn_copyi_at
  split_ifs with c
  · have hm : ∀ l, (s.map h).mem l = (s.mem l).map h := fun _ => rfl
    rw [hm]
    cases hx : s.mem sp with
    | none => rfl
    | some x =>
      simp only [Option.map_some', Machine.map, List.map_append, List.map_cons, List.map_nil]
      rw [write_map]
      simp only [Option.map_some']
  · rfl

theorem zero_p_at_map {V R W R' : Type} {P : Prims V R} {Q : Prims W R'} {h : V → W}
    {r : R → R'} (hom : PrimsHom P Q h r) (itch : Nat) (xp : Loc) (s : Machine V) :
    ecc_448_zero_p_at Q itch xp (s.map h) =
      (ecc_448_zero_p_at P itch xp s).map (Prod.map r (Machine.map h)) := by
  unfold ecc_448_zero_p_at
  split_ifs with c
  · have hm : ∀ l, (s.map h).mem l = (s.mem l).map h := fun _ => rfl
    rw [hm]
    cases hx : s.mem xp with
    | none => rfl
    | some x =>
      simp only [Option.map_some', Machine.map, List.map_append, List.map_cons, List.map_nil,
        Prod.map]
      rw [write_map]
      simp only [Option.map_some', hom.2.2.2.1, hom.2.2.2.2]
  · rfl

theorem unsigned_sub_at_map_fst {V W : Type} (h : V → W) (k d : Nat) (s : Machine V) :
    (unsigned_sub_at k d (s.map h)).1 = (unsigned_sub_at k d s).1 := rfl

theorem unsigned_sub_at_map_snd {V W : Type} (h : V → W) (k d : Nat) (s : Machine V) :
    (unsigned_sub_at k d (s.map h)).2 = (unsigned_sub_at k d s).2.map h := rfl

theorem pow_2k_loop_at_map {V R W R' : Type} {P : Prims V R} {Q : Prims W R'} {h : V → W}
    {r : R → R'} (hom : PrimsHom P Q h r) (itch : Nat) (rp tp : Loc) :
    ∀ (fuel k : Nat) (s : Machine V),
      ecc_mod_pow_2k_loop_at Q itch rp tp fuel k (s.map h) =
        (ecc_mod_pow_2k_loop_at P itch rp tp fuel k s).map (Machine.map h) := by
  intro fuel
  induction fuel with
  | zero => intro k s; rfl
  | succ n ih =>
    intro k s
    unfold ecc_mod_pow_2k_loop_at
    split_ifs with hk
    · rw [sqr_at_map hom]
      refine bind_map_comm _ _ _ _ _ fun s1 => ?_
      rw [sqr_at_map hom]
      refine bind_map_comm _ _ _ _ _ fun s2 => ?_
      rw [unsigned_sub_at_map_fst, unsigned_sub_at_map_snd]
      exact ih _ _
    · rfl

theorem pow_2k_at_map {V R W R' : Type} {P : Prims V R} {Q : Prims W R'} {h : V → W}
    {r : R → R'} (hom : PrimsHom P Q h r) (itch : Nat) (rp xp : Loc) (k : Nat) (tp : Loc)
    (s : Machine V) :
    ecc_mod_pow_2k_at Q itch rp xp k tp (s.map h) =
      (ecc_mod_pow_2k_at P itch rp xp k tp s).map (Machine.map h) := by
  unfold ecc_mod_pow_2k_at
  split_ifs with hk
  · rw [sqr_at_map hom]
    refine bind_map_comm _ _ _ _ _ fun s1 => ?_
    rw [unsigned_sub_at_map_fst, unsigned_sub_at_map_snd]
    exact pow_2k_loop_at_map hom itch rp tp _ _ _
  · rw [sqr_at_map hom]
    refine bind_map_comm _ _ _ _ _ fun s1 => ?_
    rw [sqr_at_map hom]
    refine bind_map_comm _ _ _ _ _ fun s2 => ?_
    rw [unsigned_sub_at_map_fst, unsigned_sub_at_map_snd]
    exact pow_2k_loop_at_map hom itch rp tp _ _ _

theorem exec_stmt_map {V R W R' : Type} {P : Prims V R} {Q : Prims W R'} {h : V → W}
    {r : R → R'} (hom : PrimsHom P Q h r) (itch : Nat) (st : Stmt) (s : Machine V) :
    exec_stmt Q itch st (s.map h) = (exec_stmt P itch st s).map (Machine.map h) := by
  unfold exec_stmt
  have key : ∀ s1 : Machine V,
      (match (s1.map h).mem st.dst with
        | some x => some { s1.map h with written := (s1.map h).written ++ [x] }
        | none => none) =
      (match s1.mem st.dst with
        | some x => some { s1 with written := s1.written ++ [x] }
        | none => none).map (Machine.map h) := by
    intro s1
    have hm : (s1.map h).mem st.dst = (s1.mem st.dst).map h := rfl
    rw [hm]
    cases s1.mem st.dst with
    | none => rfl
    | some x =>
      simp only [Option.map_some', Machine.map, List.map_append, List.map_cons, List.map_nil]
  cases st with
  | sqr rp ap =>
    simp only
    rw [sqr_at_map hom]
    exact bind_map_comm _ _ _ _ _ key
  | mul rp ap bp =>
    simp only
    rw [mul_at_map hom]
    exact bind_map_comm _ _ _ _ _ key
  | pow_2k rp xp k tp =>
    simp only
    rw [pow_2k_at_map hom]
    exact bind_map_comm _ _ _ _ _ key

theorem exec_stmts_map {V R W R' : Type} {P : Prims V R} {Q : Prims W R'} {h : V → W}
    {r : R → R'} (hom : PrimsHom P Q h r) (itch : Nat) :
    ∀ (sts : List Stmt) (s : Machine V),
      exec_stmts Q itch sts (s.map h) = (exec_stmts P itch sts s).map (Machine.map h) := by
  intro sts
  induction sts with
  | nil => intro s; rfl
  | cons st rest ih =>
    intro s
    unfold exec_stmts
    rw [exec_stmt_map hom]
    exact bind_map_comm _ _ _ _ _ fun s1 => ih s1

theorem pow_446m224m1_at_map {V R W R' : Type} {P : Prims V R} {Q : Prims W R'} {h : V → W}
    {r : R → R'} (hom : PrimsHom P Q h r) (itch : Nat) (rp ap scratch : Loc) (s : Machine V) :
    ecc_mod_pow_446m224m1_at Q itch rp ap scratch (s.map h) =
      (ecc_mod_pow_446m224m1_at P itch rp ap scratch s).map (Machine.map h) :=
  exec_stmts_map hom itch _ s

theorem inv_at_map {V R W R' : Type} {P : Prims V R} {Q : Prims W R'} {h : V → W}
    {r : R → R'} (hom : PrimsHom P Q h r) (itch : Nat) (rp ap scratch : Loc) (s : Machine V) :
    ecc_448_inv_at Q itch rp ap scratch (s.map h) =
      (ecc_448_inv_at P itch rp ap scratch s).map (Machine.map h) := by
  unfold ecc_448_inv_at
  simp only
  rw [pow_446m224m1_at_map hom]
  refine bind_map_comm _ _ _ _ _ fun s1 => ?_
  rw [sqr_at_map hom]
  refine bind_map_comm _ _ _ _ _ fun s2 => ?_
  rw [sqr_at_map hom]
  refine bind_map_comm _ _ _ _ _ fun s3 => ?_
  rw [mul_at_map hom]
  refine bind_map_comm _ _ _ _ _ fun s4 => ?_
  exact copyi_at_map h itch _ _ s4

theorem sqrt_at_map {V R W R' : Type} {P : Prims V R} {Q : Prims W R'} {h : V → W}
    {r : R → R'} (hom : PrimsHom P Q h r) (itch : Nat) (rp up vp scratch : Loc)
    (s : Machine V) :
    ecc_448_sqrt_at Q itch rp up vp scratch (s.map h) =
      (ecc_448_sqrt_at P itch rp up vp scratch s).map (Prod.map r (Machine.map h)) := by
  unfold ecc_448_sqrt_at
  simp only
  rw [sqr_at_map hom]
  refine bind_map_comm _ _ _ _ _ fun s1 => ?_
  rw [mul_at_map hom]
  refine bind_map_comm _ _ _ _ _ fun s2 => ?_
  rw [mul_at_map hom]
  refine bind_map_comm _ _ _ _ _ fun s3 => ?_
  rw [mul_at_map hom]
  refine bind_map_comm _ _ _ _ _ fun s4 => ?_
  rw [sqr_at_map hom]
  refine bind_map_comm _ _ _ _ _ fun s5 => ?_
  rw [mul_at_map hom]
  refine bind_map_comm _ _ _ _ _ fun s6 => ?_
  rw [pow_446m224m1_at_map hom]
  refine bind_map_comm _ _ _ _ _ fun s7 => ?_
  rw [mul_at_map hom]
  refine bind_map_comm _ _ _ _ _ fun s8 => ?_
  rw [sqr_at_map hom]
  refine bind_map_comm _ _ _ _ _ fun s9 => ?_
  rw [mul_at_map hom]
  refine bind_map_comm _ _ _ _ _ fun s10 => ?_
  rw [sub_at_map hom]
  refine bind_map_comm _ _ _ _ _ fun s11 => ?_
  exact zero_p_at_map hom itch _ s11

/-! ## Symbolic runs and what they stand for -/

theorem eval_exp (p u v : Nat) (x : Sym) (i j : Nat) (h : x.exp = some (i, j)) :
    Sym.eval p u v x % p = u ^ i * v ^ j % p := by
  cases x with
  | u =>
    simp only [Sym.exp, Option.some.injEq, Prod.mk.injEq] at h
    obtain ⟨rfl, rfl⟩ := h
    simp [Sym.eval]
  | v =>
    simp only [Sym.exp, Option.some.injEq, Prod.mk.injEq] at h
    obtain ⟨rfl, rfl⟩ := h
    simp [Sym.eval]
  | mono a b =>
    simp only [Sym.exp, Option.some.injEq, Prod.mk.injEq] at h
    obtain ⟨rfl, rfl⟩ := h
    simp [Sym.eval]
  | sqr x => simp [Sym.exp] at h
  | mul x y => simp [Sym.exp] at h
  | sub x y => simp [Sym.exp] at h
  | canon x => simp [Sym.exp] at h

theorem sym_sqr_hom (p u v : Nat) (x : Sym) :
    Sym.eval p u v (symPrims.sqr x) = ecc_mod_sqr p (Sym.eval p u v x) := by
  cases hx : x.exp with
  | none =>
    have : symPrims.sqr x = Sym.sqr x := by simp only [symPrims, hx]
    rw [this]
    rfl
  | some ij =>
    obtain ⟨i, j⟩ := ij
    have : symPrims.sqr x = Sym.mono (i + i) (j + j) := by simp only [symPrims, hx]
    rw [this]
    have h1 := eval_exp p u v x i j hx
    show u ^ (i + i) * v ^ (j + j) % p = Sym.eval p u v x * Sym.eval p u v x % p
    rw [Nat.mul_mod (Sym.eval p u v x), h1, ← Nat.mul_mod]
    congr 1
    ring

theorem sym_mul_hom (p u v : Nat) (x y : Sym) :
    Sym.eval p u v (symPrims.mul x y) =
      ecc_mod_mul p (Sym.eval p u v x) (Sym.eval p u v y) := by
  cases hx : x.exp with
  | none =>
    have : symPrims.mul x y = Sym.mul x y := by simp only [symPrims, hx]
    rw [this]
    rfl
  | some ij =>
    cases hy : y.exp with
    | none =>
      have : symPrims.mul x y = Sym.mul x y := by simp only [symPrims, hx, hy]
      rw [this]
      rfl
    | some kl =>
      obtain ⟨i, j⟩ := ij
      obtain ⟨k, l⟩ := kl
      have : symPrims.mul x y = Sym.mono (i + k) (j + l) := by simp only [symPrims, hx, hy]
      rw [this]
      have h1 := eval_exp p u v x i j hx
      have h2 := eval_exp p u v y k l hy
      show u ^ (i + k) * v ^ (j + l) % p = Sym.eval p u v x * Sym.eval p u v y % p
      rw [Nat.mul_mod (Sym.eval p u v x), h1, h2, ← Nat.mul_mod]
      congr 1
      ring

theorem sym_hom (p u v : Nat) :
    PrimsHom symPrims (natPrims p) (Sym.eval p u v)
      (fun x => (ecc_448_zero_p p (Sym.eval p u v x)).1) :=
  ⟨sym_sqr_hom p u v, sym_mul_hom p u v, fun _ _ => rfl, fun _ => rfl, fun _ => rfl⟩

theorem init_map (p u v : Nat) :
    (Machine.init (some Sym.u) (some Sym.v)).map (Sym.eval p u v) =
      Machine.init (some u) (some v) := by
  unfold Machine.map Machine.init
  simp only [List.map_nil, Machine.mk.injEq, and_true]
  funext l
  split_ifs <;> rfl

theorem init_map_one (p u v : Nat) :
    (Machine.init (some Sym.u) none).map (Sym.eval p u v) = Machine.init (some u) none := by
  unfold Machine.map Machine.init
  simp only [List.map_nil, Machine.mk.injEq, and_true]
  funext l
  split_ifs <;> rfl

theorem pow_446m224m1_at_nat (p a itch : Nat) (rp ap scratch : Loc) :
    ecc_mod_pow_446m224m1_at (natPrims p) itch rp ap scratch (Machine.init (some a) none) =
      (ecc_mod_pow_446m224m1_at symPrims itch rp ap scratch
        (Machine.init (some Sym.u) none)).map (Machine.map (Sym.eval p a 0)) := by
  rw [← init_map_one p a 0]
  exact pow_446m224m1_at_map (sym_hom p a 0) itch rp ap scratch _

theorem inv_at_nat (p a itch : Nat) (rp ap scratch : Loc) :
    ecc_448_inv_at (natPrims p) itch rp ap scratch (Machine.init (some a) none) =
      (ecc_448_inv_at symPrims itch rp ap scratch
        (Machine.init (some Sym.u) none)).map (Machine.map (Sym.eval p a 0)) := by
  rw [← init_map_one p a 0]
  exact inv_at_map (sym_hom p a 0) itch rp ap scratch _

theorem sqrt_at_nat (p u v itch : Nat) (rp up vp scratch : Loc) :
    ecc_448_sqrt_at (natPrims p) itch rp up vp scratch (Machine.init (some u) (some v)) =
      (ecc_448_sqrt_at symPrims itch rp up vp scratch
        (Machine.init (some Sym.u) (some Sym.v))).map
          (Prod.map (fun x => (ecc_448_zero_p p (Sym.eval p u v x)).1)
            (Machine.map (Sym.eval p u v))) := by
  rw [← init_map p u v]
  exact sqrt_at_map (sym_hom p u v) itch rp up vp scratch _

/-! ## The squaring engine in memory, for every count -/

theorem write_same {V : Type} (m : Loc → Option V) (l : Loc) (x : Option V) :
    write m l x l = x := by
  unfold write
  rw [if_pos rfl]

theorem write_other {V : Type} (m : Loc → Option V) (l l' : Loc) (x : Option V)
    (h : l' ≠ l) : write m l x l' = m l' := by
  unfold write
  rw [if_neg h]

theorem loc_ne_add_one (l : Loc) : l ≠ l.add 1 := by
  intro h
  have := congrArg Loc.off h
  simp [Loc.add] at this

theorem not_overlaps_ne (d s : Loc) (h : overlaps d 2 s 1 = false) :
    s ≠ d ∧ s ≠ d.add 1 := by
  constructor
  · rintro rfl
    simp [overlaps] at h
  · rintro rfl
    simp [overlaps, Loc.add] at h
    omega

theorem sqr_at_eq {V R : Type} (P : Prims V R) (itch : Nat) (rp ap : Loc) (s : Machine V)
    (x : V) (h1 : scratch_ok itch rp 2 = true) (h2 : scratch_ok itch ap 1 = true)
    (h3 : overlaps rp 2 ap 1 = false) (hx : s.mem ap = some x) :
    ecc_mod_sqr_at P itch rp ap s =
      some { s with
        mem := write (write s.mem rp (some (P.sqr x))) (rp.add 1) none
        ops := s.ops ++ [Op.sqr rp ap] } := by
  unfold ecc_mod_sqr_at
  rw [h1, h2, h3, hx]
  rfl

theorem scratch_ok_one (itch : Nat) (l : Loc) (h : scratch_ok itch l 2 = true) :
    scratch_ok itch l 1 = true := by
  unfold scratch_ok at h ⊢
  simp only [Bool.or_eq_true, decide_eq_true_eq] at h ⊢
  rcases h with h | h
  · exact Or.inl h
  · right
    have : (l.off + 1) * ECC_LIMB_SIZE ≤ (l.off + 2) * ECC_LIMB_SIZE :=
      Nat.mul_le_mul_right _ (by omega)
    omega

theorem overlaps_two_two (rp tp : Loc) (h : overlaps rp 2 tp 2 = false) :
    overlaps rp 2 tp 1 = false ∧ overlaps tp 2 rp 1 = false := by
  obtain ⟨b1, o1⟩ := rp
  obtain ⟨b2, o2⟩ := tp
  unfold overlaps at h ⊢
  simp only [Bool.and_eq_false_iff, decide_eq_false_iff_not] at h ⊢
  by_cases hb : b1 = b2
  · subst hb
    simp only [not_true_eq_false, false_or] at h ⊢
    constructor <;> omega
  · exact ⟨Or.inl (Or.inl hb), Or.inl (Or.inl fun e => hb e.symm)⟩

theorem pow_2k_loop_at_eq {V R : Type} (P : Prims V R) (itch : Nat) (rp tp : Loc)
    (hrp : scratch_ok itch rp 2 = true) (htp : scratch_ok itch tp 2 = true)
    (hov : overlaps rp 2 tp 2 = false) :
    ∀ (fuel k : Nat) (s : Machine V) (r : V), k % 2 = 0 → k < UINT_RANGE → k / 2 < fuel →
      s.mem rp = some r →
      ∃ s', ecc_mod_pow_2k_loop_at P itch rp tp fuel k s = some s' ∧
        s'.mem rp = some (P.sqr^[k] r) ∧
        s'.ops = s.ops ++ (List.replicate (k / 2) [Op.sqr tp rp, Op.sqr rp tp]).flatten ∧
        s'.wrapped = s.wrapped ∧ s'.written = s.written := by
  obtain ⟨ho1, ho2⟩ := overlaps_two_two rp tp hov
  obtain ⟨hn1, hn2⟩ := not_overlaps_ne tp rp ho2
  obtain ⟨hn3, hn4⟩ := not_overlaps_ne rp tp ho1
  intro fuel
  induction fuel with
  | zero => intro k s r _ _ h; omega
  | succ n ih =>
    intro k s r hk2 hk hf hr
    unfold ecc_mod_pow_2k_loop_at
    by_cases hk0 : k = 0
    · subst hk0
      refine ⟨s, if_neg (Nat.lt_irrefl 0), hr, ?_, rfl, rfl⟩
      rw [Nat.zero_div, List.replicate_zero, List.flatten_nil, List.append_nil]
    · have hpos : k > 0 := Nat.pos_of_ne_zero hk0
      rw [if_pos hpos, sqr_at_eq P itch tp rp s r htp (scratch_ok_one _ _ hrp) ho2 hr,
        Option.some_bind]
      have hm1 : (write (write s.mem tp (some (P.sqr r))) (tp.add 1) none) tp =
          some (P.sqr r) := by
        rw [write_other _ _ _ _ (loc_ne_add_one tp), write_same]
      rw [sqr_at_eq P itch rp tp _ (P.sqr r) hrp (scratch_ok_one _ _ htp) ho1 hm1,
        Option.some_bind]
      have hsub : unsigned_sub k 2 = k - 2 := unsigned_sub_eq k 2 (by omega) hk
      have hw : (s.wrapped || decide (k < 2)) = s.wrapped := by
        have : ¬ k < 2 := by omega
        simp [this]
      obtain ⟨s', h1, h2, h3, h4, h5⟩ := ih (k - 2)
        { mem := write (write (write (write s.mem tp (some (P.sqr r))) (tp.add 1) none) rp
            (some (P.sqr (P.sqr r)))) (rp.add 1) none
          ops := s.ops ++ [Op.sqr tp rp] ++ [Op.sqr rp tp]
          written := s.written
          wrapped := s.wrapped }
        (P.sqr (P.sqr r)) (by omega) (by omega) (by omega)
        (by
          show write _ _ _ rp = _
          rw [write_other _ _ _ _ (loc_ne_add_one rp), write_same])
      refine ⟨s', ?_, ?_, ?_, h4, h5⟩
      · simp only [unsigned_sub_at, hsub, hw]
        exact h1
      · rw [h2]
        have : k = (k - 2) + 2 := by omega
        conv_rhs => rw [this]
        rw [Function.iterate_add_apply]
        rfl
      · rw [h3]
        have : k / 2 = (k - 2) / 2 + 1 := by omega
        rw [this, List.replicate_succ, List.flatten_cons]
        simp only [List.append_assoc, List.cons_append, List.nil_append, List.singleton_append]

theorem pow_2k_at_eq {V R : Type} (P : Prims V R) (itch : Nat) (rp xp tp : Loc)
    (hrp : scratch_ok itch rp 2 = true) (htp : scratch_ok itch tp 2 = true)
    (hxp : scratch_ok itch xp 1 = true) (hov : overlaps rp 2 tp 2 = false)
    (hx1 : overlaps rp 2 xp 1 = false) (hx2 : overlaps tp 2 xp 1 = false)
    (k : Nat) (s : Machine V) (x : V) (hk1 : 1 ≤ k) (hk : k < UINT_RANGE)
    (hx : s.mem xp = some x) :
    ∃ s', ecc_mod_pow_2k_at P itch rp xp k tp s = some s' ∧
      s'.mem rp = some (P.sqr^[k] x) ∧
      s'.ops = s.ops ++ pow_2k_trace rp xp k tp ∧
      s'.wrapped = s.wrapped ∧ s'.written = s.written := by
  have hU : UINT_RANGE = 2 ^ 32 := rfl
  have hF : POW_2K_FUEL = 2 ^ 31 + 1 := rfl
  obtain ⟨ho1, ho2⟩ := overlaps_two_two rp tp hov
  unfold ecc_mod_pow_2k_at pow_2k_trace
  rw [Nat.and_one_is_mod]
  by_cases hodd : k % 2 = 1
  · have hne : k % 2 ≠ 0 := by omega
    rw [if_pos hne, if_pos hodd, if_pos hodd, sqr_at_eq P itch rp xp s x hrp hxp hx1 hx,
      Option.some_bind]
    have hsub : unsigned_sub k 1 = k - 1 := unsigned_sub_eq k 1 hk1 hk
    have hw : (s.wrapped || decide (k < 1)) = s.wrapped := by
      have : ¬ k < 1 := by omega
      simp [this]
    obtain ⟨s', h1, h2, h3, h4, h5⟩ := pow_2k_loop_at_eq P itch rp tp hrp htp hov POW_2K_FUEL
      (k - 1)
      { mem := write (write s.mem rp (some (P.sqr x))) (rp.add 1) none
        ops := s.ops ++ [Op.sqr rp xp]
        written := s.written
        wrapped := s.wrapped }
      (P.sqr x) (by omega) (by omega) (by omega)
      (by
        show write _ _ _ rp = _
        rw [write_other _ _ _ _ (loc_ne_add_one rp), write_same])
    refine ⟨s', ?_, ?_, ?_, h4, h5⟩
    · simp only [unsigned_sub_at, hsub, hw]
      exact h1
    · rw [h2]
      have : k = (k - 1) + 1 := by omega
      conv_rhs => rw [this]
      rw [Function.iterate_add_apply]
      rfl
    · rw [h3, List.append_assoc]
  · have he : k % 2 = 0 := by omega
    have hne : ¬ k % 2 ≠ 0 := by omega
    rw [if_neg hne, if_neg hodd, if_neg hodd, sqr_at_eq P itch tp xp s x htp hxp hx2 hx,
      Option.some_bind]
    have hm1 : (write (write s.mem tp (some (P.sqr x))) (tp.add 1) none) tp =
        some (P.sqr x) := by
      rw [write_other _ _ _ _ (loc_ne_add_one tp), write_same]
    rw [sqr_at_eq P itch rp tp _ (P.sqr x) hrp (scratch_ok_one _ _ htp) ho1 hm1,
      Option.some_bind]
    have hsub : unsigned_sub k 2 = k - 2 := unsigned_sub_eq k 2 (by omega) hk
    have hw : (s.wrapped || decide (k < 2)) = s.wrapped := by
      have : ¬ k < 2 := by omega
      simp [this]
    obtain ⟨s', h1, h2, h3, h4, h5⟩ := pow_2k_loop_at_eq P itch rp tp hrp htp hov POW_2K_FUEL
      (k - 2)
      { mem := write (write (write (write s.mem tp (some (P.sqr x))) (tp.add 1) none) rp
          (some (P.sqr (P.sqr x)))) (rp.add 1) none
        ops := s.ops ++ [Op.sqr tp xp] ++ [Op.sqr rp tp]
        written := s.written
        wrapped := s.wrapped }
      (P.sqr (P.sqr x)) (by omega) (by omega) (by omega)
      (by
        show write _ _ _ rp = _
        rw [write_other _ _ _ _ (loc_ne_add_one rp), write_same])
    refine ⟨s', ?_, ?_, ?_, h4, h5⟩
    · simp only [unsigned_sub_at, hsub, hw]
      exact h1
    · rw [h2]
      have : k = (k - 2) + 2 := by omega
      conv_rhs => rw [this]
      rw [Function.iterate_add_apply]
      rfl
    · rw [h3]
      simp only [List.append_assoc, List.cons_append, List.nil_append, List.singleton_append]

theorem length_flatten_pairs (a b : Op) : ∀ n : Nat,
    (List.replicate n [a, b]).flatten.length = 2 * n := by
  intro n
  induction n with
  | zero => rfl
  | succ n ih =>
    rw [List.replicate_succ, List.flatten_cons, List.length_append, ih]
    simp only [List.length_cons, List.length_nil]
    omega

theorem pow_2k_trace_length (rp xp tp : Loc) (k : Nat) (hk1 : 1 ≤ k) :
    (pow_2k_trace rp xp k tp).length = k := by
  unfold pow_2k_trace
  rw [List.length_append, length_flatten_pairs]
  by_cases hodd : k % 2 = 1
  · rw [if_pos hodd, if_pos hodd]
    simp only [List.length_cons, List.length_nil]
    omega
  · rw [if_neg hodd, if_neg hodd]
    simp only [List.length_cons, List.length_nil]
    omega

theorem sqr_iterate_nat (p x : Nat) : ∀ k : Nat, 1 ≤ k →
    (natPrims p).sqr^[k] x = x ^ 2 ^ k % p := by
  intro k
  induction k with
  | zero => intro h; omega
  | succ n ih =>
    intro _
    rw [Function.iterate_succ_apply']
    rcases Nat.eq_zero_or_pos n with rfl | hn
    · show ecc_mod_sqr p x = _
      rw [sqr_raw]
      rfl
    · rw [ih hn]
      show ecc_mod_sqr p (x ^ 2 ^ n % p) = _
      rw [sqr_pow, ← pow_succ]

theorem pow_2k_at_zero {V R : Type} (P : Prims V R) (itch : Nat) (rp xp tp : Loc)
    (hrp : scratch_ok itch rp 2 = true) (htp : scratch_ok itch tp 2 = true)
    (hxp : scratch_ok itch xp 1 = true) (hov : overlaps rp 2 tp 2 = false)
    (hx2 : overlaps tp 2 xp 1 = false) (s : Machine V) (x : V) (hx : s.mem xp = some x) :
    ∃ s', ecc_mod_pow_2k_at P itch rp xp 0 tp s = some s' ∧ s'.wrapped = true ∧
      s'.mem rp = some (P.sqr^[2 ^ 32] x) := by
  have hU : UINT_RANGE = 2 ^ 32 := rfl
  have hF : POW_2K_FUEL = 2 ^ 31 + 1 := rfl
  obtain ⟨ho1, ho2⟩ := overlaps_two_two rp tp hov
  unfold ecc_mod_pow_2k_at
  rw [if_neg (by decide), sqr_at_eq P itch tp xp s x htp hxp hx2 hx, Option.some_bind]
  have hm1 : (write (write s.mem tp (some (P.sqr x))) (tp.add 1) none) tp =
      some (P.sqr x) := by
    rw [write_other _ _ _ _ (loc_ne_add_one tp), write_same]
  rw [sqr_at_eq P itch rp tp _ (P.sqr x) hrp (scratch_ok_one _ _ htp) ho1 hm1,
    Option.some_bind]
  have hsub : unsigned_sub 0 2 = 2 ^ 32 - 2 := by
    unfold unsigned_sub
    rw [hU]
    norm_num
  obtain ⟨s', h1, h2, _, h4, _⟩ := pow_2k_loop_at_eq P itch rp tp hrp htp hov POW_2K_FUEL
    (2 ^ 32 - 2)
    { mem := write (write (write (write s.mem tp (some (P.sqr x))) (tp.add 1) none) rp
        (some (P.sqr (P.sqr x)))) (rp.add 1) none
      ops := s.ops ++ [Op.sqr tp xp] ++ [Op.sqr rp tp]
      written := s.written
      wrapped := true }
    (P.sqr (P.sqr x)) (by norm_num) (by rw [hU]; norm_num) (by rw [hF]; norm_num)
    (by
      show write _ _ _ rp = _
      rw [write_other _ _ _ _ (loc_ne_add_one rp), write_same])
  refine ⟨s', ?_, h4, ?_⟩
  · simp only [unsigned_sub_at, hsub]
    have hw : ∀ b : Bool, (b || decide (0 < 2)) = true := by intro b; simp
    simp only [hw]
    exact h1
  · rw [h2]
    have : (2 : Nat) ^ 32 = (2 ^ 32 - 2) + 2 := by norm_num
    conv_rhs => rw [this]
    rw [Function.iterate_add_apply]
    rfl

/-! ## The symbolic runs of the three routines -/

theorem sym_chain_run :
    ((ecc_mod_pow_446m224m1_at symPrims ECC_448_INV_ITCH loc_rp loc_ap loc_scratch
      (Machine.init (some Sym.u) none)).map fun s =>
        (s.mem loc_rp, s.written, s.wrapped,
          decide (s.ops =
            ((ecc_mod_pow_446m224m1_stmts loc_rp loc_ap loc_scratch).map Stmt.trace).flatten),
          s.ops.all (Op.ok ECC_448_INV_ITCH))) =
      some (some (Sym.mono (2 ^ 446 - 2 ^ 222 - 1) 0),
        [2, 3, 6, 2 ^ 3 - 1, 2 ^ 6 - 2 ^ 3, 2 ^ 6 - 1, 2 ^ 9 - 2 ^ 3, 2 ^ 9 - 1,
          2 ^ 18 - 2 ^ 9, 2 ^ 18 - 1, 2 ^ 19 - 2, 2 ^ 19 - 1, 2 ^ 37 - 2 ^ 18, 2 ^ 37 - 1,
          2 ^ 74 - 2 ^ 37, 2 ^ 74 - 1, 2 ^ 111 - 2 ^ 37, 2 ^ 111 - 1, 2 ^ 222 - 2 ^ 111,
          2 ^ 222 - 1, 2 ^ 223 - 2, 2 ^ 223 - 1, 2 ^ 446 - 2 ^ 223,
          2 ^ 446 - 2 ^ 222 - 1].map (fun e => Sym.mono e 0),
        false, true, true) := by
  decide!

theorem sym_inv_run :
    ((ecc_448_inv_at symPrims ECC_448_INV_ITCH loc_rp loc_ap loc_scratch
      (Machine.init (some Sym.u) none)).map fun s =>
        (s.mem loc_rp, s.wrapped, s.ops.all (Op.ok ECC_448_INV_ITCH))) =
      some (some (Sym.mono (2 ^ 448 - 2 ^ 224 - 3) 0), false, true) := by
  decide!

theorem sym_sqrt_run :
    ((ecc_448_sqrt_at symPrims ECC_448_SQRT_ITCH loc_rp loc_ap loc_vp loc_scratch
      (Machine.init (some Sym.u) (some Sym.v))).map fun r =>
        (r.1, r.2.mem loc_rp, r.2.wrapped, r.2.ops.all (Op.ok ECC_448_SQRT_ITCH))) =
      some (Sym.sub (Sym.mono (2 * (3 + 5 * (2 ^ 446 - 2 ^ 222 - 1)))
          (2 * (1 + 3 * (2 ^ 446 - 2 ^ 222 - 1)) + 1)) Sym.u,
        some (Sym.mono (3 + 5 * (2 ^ 446 - 2 ^ 222 - 1)) (1 + 3 * (2 ^ 446 - 2 ^ 222 - 1))),
        false, true) := by
  decide!

/-! ## The runs on numbers -/

theorem eval_mono_zero (p a e : Nat) : Sym.eval p a 0 (Sym.mono e 0) = a ^ e % p := by
  show a ^ e * 0 ^ 0 % p = a ^ e % p
  rw [pow_zero, mul_one]

theorem pow_446m224m1_at_run (p a : Nat) :
    ∃ s, ecc_mod_pow_446m224m1_at (natPrims p) ECC_448_INV_ITCH loc_rp loc_ap loc_scratch
        (Machine.init (some a) none) = some s ∧
      s.mem loc_rp = some (a ^ (2 ^ 446 - 2 ^ 222 - 1) % p) ∧
      s.written =
        [2, 3, 6, 2 ^ 3 - 1, 2 ^ 6 - 2 ^ 3, 2 ^ 6 - 1, 2 ^ 9 - 2 ^ 3, 2 ^ 9 - 1,
          2 ^ 18 - 2 ^ 9, 2 ^ 18 - 1, 2 ^ 19 - 2, 2 ^ 19 - 1, 2 ^ 37 - 2 ^ 18, 2 ^ 37 - 1,
          2 ^ 74 - 2 ^ 37, 2 ^ 74 - 1, 2 ^ 111 - 2 ^ 37, 2 ^ 111 - 1, 2 ^ 222 - 2 ^ 111,
          2 ^ 222 - 1, 2 ^ 223 - 2, 2 ^ 223 - 1, 2 ^ 446 - 2 ^ 223,
          2 ^ 446 - 2 ^ 222 - 1].map (fun e => a ^ e % p) ∧
      s.wrapped = false ∧
      s.ops = ((ecc_mod_pow_446m224m1_stmts loc_rp loc_ap loc_scratch).map
        Stmt.trace).flatten ∧
      s.ops.all (Op.ok ECC_448_INV_ITCH) = true := by
  obtain ⟨t, ht, hv⟩ := Option.map_eq_some'.mp sym_chain_run
  simp only [Prod.mk.injEq, decide_eq_true_eq] at hv
  obtain ⟨h1, h2, h3, h4, h5⟩ := hv
  refine ⟨t.map (Sym.eval p a 0), ?_, ?_, ?_, h3, h4, h5⟩
  · rw [pow_446m224m1_at_nat, ht]
    rfl
  · show (t.mem loc_rp).map (Sym.eval p a 0) = _
    rw [h1, Option.map_some', eval_mono_zero]
  · show t.written.map (Sym.eval p a 0) = _
    have hf : (Sym.eval p a 0 ∘ fun e => Sym.mono e 0) = fun e => a ^ e % p :=
      funext (eval_mono_zero p a)
    rw [h2, List.map_map, hf]

theorem inv_at_run (p a : Nat) :
    ∃ s, ecc_448_inv_at (natPrims p) ECC_448_INV_ITCH loc_rp loc_ap loc_scratch
        (Machine.init (some a) none) = some s ∧
      s.mem loc_rp = some (a ^ (2 ^ 448 - 2 ^ 224 - 3) % p) ∧
      s.wrapped = false ∧
      s.ops.all (Op.ok ECC_448_INV_ITCH) = true := by
  obtain ⟨t, ht, hv⟩ := Option.map_eq_some'.mp sym_inv_run
  simp only [Prod.mk.injEq] at hv
  obtain ⟨h1, h3, h5⟩ := hv
  refine ⟨t.map (Sym.eval p a 0), ?_, ?_, h3, h5⟩
  · rw [inv_at_nat, ht]
    rfl
  · show (t.mem loc_rp).map (Sym.eval p a 0) = _
    rw [h1, Option.map_some', eval_mono_zero]

theorem cand_exponents (u v e : Nat) :
    u ^ (3 + 5 * e) * v ^ (1 + 3 * e) = u ^ 3 * v * (u ^ 5 * v ^ 3) ^ e := by
  ring

theorem check_exponents (p u v i j : Nat) :
    ecc_mod_mul p (ecc_mod_sqr p (u ^ i * v ^ j % p)) v = u ^ (2 * i) * v ^ (2 * j + 1) % p := by
  unfold ecc_mod_mul ecc_mod_sqr
  rw [← Nat.mul_mod, Nat.mod_mul_mod]
  congr 1
  ring

theorem sqrt_at_run (p u v scratch : Nat) :
    ∃ r x s, ecc_448_sqrt_at (natPrims p) ECC_448_SQRT_ITCH loc_rp loc_ap loc_vp loc_scratch
        (Machine.init (some u) (some v)) = some (r, s) ∧
      s.mem loc_rp = some x ∧
      ecc_448_sqrt p u v scratch = some (r, x) ∧
      s.wrapped = false ∧
      s.ops.all (Op.ok ECC_448_SQRT_ITCH) = true := by
  obtain ⟨t, ht, hv⟩ := Option.map_eq_some'.mp sym_sqrt_run
  simp only [Prod.mk.injEq] at hv
  obtain ⟨h0, h1, h3, h5⟩ := hv
  refine ⟨(ecc_448_zero_p p (Sym.eval p u v t.1)).1,
    u ^ 3 * v * (u ^ 5 * v ^ 3) ^ (2 ^ 446 - 2 ^ 222 - 1) % p,
    t.2.map (Sym.eval p u v), ?_, ?_, ?_, h3, h5⟩
  · rw [sqrt_at_nat, ht]
    rfl
  · show (t.2.mem loc_rp).map (Sym.eval p u v) = _
    rw [h1, Option.map_some']
    show some (u ^ _ * v ^ _ % p) = _
    rw [cand_exponents]
  · rw [sqrt_eq, sqrt_cand_modEq, h0]
    show _ = some ((ecc_448_zero_p p (ecc_mod_sub p (u ^ _ * v ^ _ % p) u)).1, _)
    rw [← cand_exponents, check_exponents]

theorem chain_trace_length :
    ((ecc_mod_pow_446m224m1_stmts loc_rp loc_ap loc_scratch).map Stmt.trace).flatten.length =
      457 := by
  decide!

/-! ## The chain and the inverse -/



/-- C2: for every input `a` (and any modulus `p`), the addition chain
`ecc_mod_pow_446m224m1` returns and writes `a ^ (2^446 - 2^222 - 1) mod p`
to `rp`; for the field modulus p = 2^448 - 2^224 - 1 this exponent is
`(p - 3) / 4`. -/
theorem ecc_mod_pow_446m224m1_spec (a t2 : Nat) :
    (∀ p : Nat, ecc_mod_pow_446m224m1 p a t2 = some (a ^ (2 ^ 446 - 2 ^ 222 - 1) % p)) ∧
    ecc_mod_pow_446m224m1 ecc_p a t2 = some (a ^ ((ecc_p - 3) / 4) % ecc_p) ∧
    (ecc_p - 3) / 4 = 2 ^ 446 - 2 ^ 222 - 1 := by
  have h : (ecc_p - 3) / 4 = 2 ^ 446 - 2 ^ 222 - 1 := by rw [ecc_p_eq]; norm_num
  refine ⟨fun p => pow_446m224m1_eq p a t2, ?_, h⟩
  rw [h]
  exact pow_446m224m1_eq ecc_p a t2

/-- C8: for every field element `a`, zero included, and without any
primality assumption (any modulus `p`), `ecc_448_inv` writes
`a ^ (2^448 - 2^224 - 3) mod p`, which for the field modulus is
`a ^ (p - 2) mod p`; it is the chain result squared twice and multiplied
by `a`. -/
theorem ecc_448_inv_pow (a scratch : Nat) :
    (∀ p : Nat, ecc_448_inv p a scratch = some (a ^ (2 ^ 448 - 2 ^ 224 - 3) % p)) ∧
    ecc_448_inv ecc_p a scratch = some (a ^ (ecc_p - 2) % ecc_p) ∧
    ecc_p - 2 = 2 ^ 448 - 2 ^ 224 - 3 ∧
    (∀ p : Nat, ecc_448_inv p a scratch =
      (ecc_mod_pow_446m224m1 p a scratch).bind fun c =>
        some (ecc_mod_mul p a (ecc_mod_sqr p (ecc_mod_sqr p c)))) := by
  have h : ecc_p - 2 = 2 ^ 448 - 2 ^ 224 - 3 := by rw [ecc_p_eq]; norm_num
  refine ⟨fun p => inv_eq p a scratch, ?_, h, fun p => rfl⟩
  rw [h]
  exact inv_eq ecc_p a scratch

/-- C1: with p = 2^448 - 2^224 - 1 and the multiply and square primitives
returning reduced products, for every `a` not congruent to zero modulo p
the value `r` written by `ecc_448_inv` satisfies `r * a ≡ 1 (mod p)`. -/
theorem ecc_448_inv_mul_self (a scratch : Nat) (ha : a % ecc_p ≠ 0) :
    ∃ r, ecc_448_inv ecc_p a scratch = some r ∧ r * a % ecc_p = 1 := by
  refine ⟨_, inv_eq ecc_p a scratch, ?_⟩
  rw [Nat.mod_mul_mod, ← pow_succ]
  have h : 2 ^ 448 - 2 ^ 224 - 3 + 1 = ecc_p - 1 := by rw [ecc_p_eq]; norm_num
  rw [h]
  exact fermat_ecc_p a ha

/-- Witness for C1: the scenario a = 2, where `inverse(2) * 2 mod p = 1`. -/
theorem ecc_448_inv_mul_self_witness :
    2 % ecc_p ≠ 0 ∧ ∃ r, ecc_448_inv ecc_p 2 0 = some r ∧ r * 2 % ecc_p = 1 :=
  ⟨by rw [ecc_p_eq]; norm_num, ecc_448_inv_mul_self 2 0 (by rw [ecc_p_eq]; norm_num)⟩

/-- C7: `ecc_448_inv` applied to a zero residue returns normally and writes
zero: inverse(0) = 0, there is no error path. -/
theorem ecc_448_inv_zero (a scratch : Nat) (ha : a % ecc_p = 0) :
    ecc_448_inv ecc_p a scratch = some 0 := by
  rw [inv_eq, Nat.pow_mod, ha, Nat.zero_pow (by norm_num), Nat.zero_mod]

/-- Witness for C7: the zero buffer. -/
theorem ecc_448_inv_zero_witness :
    0 % ecc_p = 0 ∧ ecc_448_inv ecc_p 0 0 = some 0 :=
  ⟨Nat.zero_mod _, ecc_448_inv_zero 0 0 (Nat.zero_mod _)⟩

/-! ## The canonical zero test -/

/-- C9: for every buffer value `x` with `0 ≤ x < 2p`, held in
`ECC_LIMB_SIZE` limbs, after `ecc_448_zero_p` the buffer holds the canonical
representative `x mod p`, which lies in `[0, p)`: it is `x` itself when the
subtraction of `p` borrows (`x < p`) and `x - p` otherwise. -/
theorem ecc_448_zero_p_canonical (x : Nat) (hx : x < 2 * ecc_p) (hbuf : x < LIMB_RANGE) :
    (ecc_448_zero_p ecc_p x).2 = x % ecc_p ∧
    (ecc_448_zero_p ecc_p x).2 < ecc_p ∧
    (x < ecc_p → (mpn_sub_n x ecc_p).1 = 1 ∧ (ecc_448_zero_p ecc_p x).2 = x) ∧
    (ecc_p ≤ x → (mpn_sub_n x ecc_p).1 = 0 ∧ (ecc_448_zero_p ecc_p x).2 = x - ecc_p) := by
  have hb := zero_p_buf ecc_p x ecc_p_lt_range hbuf
  have hcy : (mpn_sub_n x ecc_p).1 = if x < ecc_p then 1 else 0 := by
    unfold mpn_sub_n
    simp only [Nat.mod_eq_of_lt ecc_p_lt_range, Nat.mod_eq_of_lt hbuf]
  refine ⟨by rw [hb, mod_p_of_lt_two_p x hx], ?_, ?_, ?_⟩
  · rw [zero_p_buf_mod x hbuf]
    exact Nat.mod_lt _ ecc_p_pos
  · intro h
    rw [hb, hcy, if_pos h, if_pos h]
    exact ⟨rfl, rfl⟩
  · intro h
    rw [hb, hcy, if_neg (not_lt.mpr h), if_neg (not_lt.mpr h)]
    exact ⟨rfl, rfl⟩

/-- Witness for C9: the buffer holding `p + 1`. -/
theorem ecc_448_zero_p_canonical_witness :
    ecc_p + 1 < 2 * ecc_p ∧ ecc_p + 1 < LIMB_RANGE ∧
    (ecc_448_zero_p ecc_p (ecc_p + 1)).2 = (ecc_p + 1) % ecc_p ∧
    (ecc_448_zero_p ecc_p (ecc_p + 1)).2 < ecc_p ∧
    (ecc_p + 1 < ecc_p → (mpn_sub_n (ecc_p + 1) ecc_p).1 = 1 ∧
      (ecc_448_zero_p ecc_p (ecc_p + 1)).2 = ecc_p + 1) ∧
    (ecc_p ≤ ecc_p + 1 → (mpn_sub_n (ecc_p + 1) ecc_p).1 = 0 ∧
      (ecc_448_zero_p ecc_p (ecc_p + 1)).2 = ecc_p + 1 - ecc_p) :=
  ⟨by rw [ecc_p_eq]; norm_num,
   by rw [ecc_p_eq]; norm_num [LIMB_RANGE, GMP_NUMB_BITS, ECC_LIMB_SIZE],
   ecc_448_zero_p_canonical (ecc_p + 1) (by rw [ecc_p_eq]; norm_num)
     (by rw [ecc_p_eq]; norm_num [LIMB_RANGE, GMP_NUMB_BITS, ECC_LIMB_SIZE])⟩

/-- C10: for every buffer value `x` with `0 ≤ x < 2p`, `ecc_448_zero_p`
returns 1 if and only if `x ≡ 0 (mod p)`, that is `x = 0` or `x = p`, and 0
otherwise; the OR-accumulation over all limbs is zero exactly when the
canonicalised value is zero. -/
theorem ecc_448_zero_p_iff (x : Nat) (hx : x < 2 * ecc_p) (hbuf : x < LIMB_RANGE) :
    ((ecc_448_zero_p ecc_p x).1 = 1 ↔ x % ecc_p = 0) ∧
    (x % ecc_p = 0 ↔ x = 0 ∨ x = ecc_p) ∧
    (x % ecc_p ≠ 0 → (ecc_448_zero_p ecc_p x).1 = 0) ∧
    (or_limbs (ecc_448_zero_p ecc_p x).2 ECC_LIMB_SIZE 0 0 = 0 ↔
      (ecc_448_zero_p ecc_p x).2 = 0) := by
  have hiff := zero_p_ret_iff x hbuf
  have hlt : (ecc_448_zero_p ecc_p x).2 < LIMB_RANGE := by
    rw [zero_p_buf_mod x hbuf]
    exact lt_trans (Nat.mod_lt _ ecc_p_pos) ecc_p_lt_range
  refine ⟨hiff, ?_, ?_, or_limbs_zero_iff _ hlt⟩
  · rw [mod_p_of_lt_two_p x hx]
    have hp := ecc_p_pos
    split_ifs with h
    · constructor
      · exact fun h0 => Or.inl h0
      · rintro (h0 | h0)
        · exact h0
        · omega
    · constructor
      · intro h0
        right
        omega
      · rintro (h0 | h0)
        · omega
        · omega
  · intro hne
    rcases zero_p_ret_cases ecc_p x with h1 | h0
    · exact absurd (hiff.mp h1) hne
    · exact h0

/-- Witness for C10: the buffer holding `p`, for which the test returns 1. -/
theorem ecc_448_zero_p_iff_witness :
    ecc_p < 2 * ecc_p ∧ ecc_p < LIMB_RANGE ∧
    ((ecc_448_zero_p ecc_p ecc_p).1 = 1 ↔ ecc_p % ecc_p = 0) ∧
    (ecc_p % ecc_p = 0 ↔ ecc_p = 0 ∨ ecc_p = ecc_p) ∧
    (ecc_p % ecc_p ≠ 0 → (ecc_448_zero_p ecc_p ecc_p).1 = 0) ∧
    (or_limbs (ecc_448_zero_p ecc_p ecc_p).2 ECC_LIMB_SIZE 0 0 = 0 ↔
      (ecc_448_zero_p ecc_p ecc_p).2 = 0) :=
  ⟨by rw [ecc_p_eq]; norm_num, ecc_p_lt_range,
   ecc_448_zero_p_iff ecc_p (by rw [ecc_p_eq]; norm_num) ecc_p_lt_range⟩

/-! ## The square root -/

/-- C5: for every `u` and `v`, `ecc_448_sqrt` returns normally; the value it
returns is the result of the canonical zero test on `v * x^2 - u` for the
value `x` it wrote to the output, it is 1 or 0, and it is 1 if and only if
`v * x^2 ≡ u (mod p)`: a returned success always carries a valid root. -/
theorem ecc_448_sqrt_success_iff (u v scratch : Nat) :
    ∃ r x, ecc_448_sqrt ecc_p u v scratch = some (r, x) ∧
      r = (ecc_448_zero_p ecc_p
        (ecc_mod_sub ecc_p (ecc_mod_mul ecc_p (ecc_mod_sqr ecc_p x) v) u)).1 ∧
      (r = 1 ∨ r = 0) ∧
      (r = 1 ↔ v * x ^ 2 % ecc_p = u % ecc_p) :=
  ⟨_, _, sqrt_result u v scratch, rfl, zero_p_ret_cases _ _, sqrt_ret_iff u v _⟩

/-- C3: for every `v` not congruent to zero and every `u` such that `u / v`
is a square modulo p (some `y` has `y^2 * v ≡ u`), `ecc_448_sqrt (u, v)`
returns 1 and the value `x` it writes satisfies `x^2 * v ≡ u (mod p)`; the
root is `y` or `p - y` modulo p. -/
theorem ecc_448_sqrt_residue (u v y scratch : Nat) (hv : v % ecc_p ≠ 0)
    (hy : y ^ 2 * v % ecc_p = u % ecc_p) :
    ∃ x, ecc_448_sqrt ecc_p u v scratch = some (1, x) ∧
      x ^ 2 * v % ecc_p = u % ecc_p ∧
      (x = y % ecc_p ∨ x = (ecc_p - y % ecc_p) % ecc_p) := by
  have hroot := sqrt_cand_root u v y hv hy
  have hret := (sqrt_ret_iff u v _).mpr hroot
  refine ⟨u ^ 3 * v * (u ^ 5 * v ^ 3) ^ (2 ^ 446 - 2 ^ 222 - 1) % ecc_p, ?_, ?_, ?_⟩
  · rw [sqrt_result, hret]
  · rw [mul_comm]
    exact hroot
  · refine sq_root_sign v _ y hv (Nat.mod_lt _ ecc_p_pos) ?_
    rw [hroot, ← hy, mul_comm]

/-- Witness for C3: the scenario v = 5, y = 7, u = 7^2 * 5 = 245, where the
root is 7 or p - 7. -/
theorem ecc_448_sqrt_residue_witness :
    5 % ecc_p ≠ 0 ∧ 7 ^ 2 * 5 % ecc_p = 245 % ecc_p ∧
    ∃ x, ecc_448_sqrt ecc_p 245 5 0 = some (1, x) ∧
      x ^ 2 * 5 % ecc_p = 245 % ecc_p ∧
      (x = 7 % ecc_p ∨ x = (ecc_p - 7 % ecc_p) % ecc_p) :=
  ⟨by rw [ecc_p_eq]; norm_num, by norm_num,
   ecc_448_sqrt_residue 245 5 7 0 (by rw [ecc_p_eq]; norm_num) (by norm_num)⟩

/-- C4: for every `u` and every `v` not congruent to zero such that `u / v`
is a quadratic non-residue modulo p (no `y` has `y^2 * v ≡ u`),
`ecc_448_sqrt (u, v)` returns 0. -/
theorem ecc_448_sqrt_nonresidue (u v scratch : Nat) (_hv : v % ecc_p ≠ 0)
    (hn : ¬ ∃ y, y ^ 2 * v % ecc_p = u % ecc_p) :
    ∃ x, ecc_448_sqrt ecc_p u v scratch = some (0, x) := by
  refine ⟨u ^ 3 * v * (u ^ 5 * v ^ 3) ^ (2 ^ 446 - 2 ^ 222 - 1) % ecc_p, ?_⟩
  rw [sqrt_result]
  rcases zero_p_ret_cases ecc_p (ecc_mod_sub ecc_p (ecc_mod_mul ecc_p (ecc_mod_sqr ecc_p
      (u ^ 3 * v * (u ^ 5 * v ^ 3) ^ (2 ^ 446 - 2 ^ 222 - 1) % ecc_p)) v) u) with h1 | h0
  · exfalso
    apply hn
    refine ⟨u ^ 3 * v * (u ^ 5 * v ^ 3) ^ (2 ^ 446 - 2 ^ 222 - 1) % ecc_p, ?_⟩
    rw [mul_comm]
    exact (sqrt_ret_iff u v _).mp h1
  · rw [h0]

/-- Witness for C4: v = 1 and u = p - 1, as -1 is not a square modulo p. -/
theorem ecc_448_sqrt_nonresidue_witness :
    1 % ecc_p ≠ 0 ∧ (¬ ∃ y, y ^ 2 * 1 % ecc_p = (ecc_p - 1) % ecc_p) ∧
    ∃ x, ecc_448_sqrt ecc_p (ecc_p - 1) 1 0 = some (0, x) :=
  ⟨by rw [ecc_p_eq]; norm_num, fun ⟨y, hy⟩ => neg_one_not_square y hy,
   ecc_448_sqrt_nonresidue (ecc_p - 1) 1 0 (by rw [ecc_p_eq]; norm_num)
     (fun ⟨y, hy⟩ => neg_one_not_square y hy)⟩

/-- Counterexample to C6 as stated: for u = 0 and v = 0 the candidate is
x = 0, the verification `v * x^2 ≡ u` succeeds and `ecc_448_sqrt` returns 1,
not 0. -/
theorem ecc_448_sqrt_zero_zero :
    0 % ecc_p = 0 ∧ ecc_448_sqrt ecc_p 0 0 0 = some (1, 0) ∧
    ¬ ∃ x, ecc_448_sqrt ecc_p 0 0 0 = some (0, x) := by
  have hc : 0 ^ 3 * 0 * (0 ^ 5 * 0 ^ 3) ^ (2 ^ 446 - 2 ^ 222 - 1) % ecc_p = 0 :=
    sqrt_cand_zero 0 0 (Nat.zero_mod _)
  have hret := (sqrt_ret_iff 0 0 0).mpr (by simp)
  have h : ecc_448_sqrt ecc_p 0 0 0 = some (1, 0) := by
    rw [sqrt_result, hc, hret]
  refine ⟨Nat.zero_mod _, h, ?_⟩
  rintro ⟨x, hx⟩
  rw [h] at hx
  injection hx with hx
  injection hx with h1 _
  exact absurd h1 (Nat.succ_ne_zero 0)

/-- C6, amended: for every `u` not congruent to zero, when the denominator
`v` is not invertible (`v ≡ 0 mod p`), `ecc_448_sqrt (u, v)` fails
verification and returns 0, the candidate written being 0. -/
theorem ecc_448_sqrt_zero_denominator (u v scratch : Nat) (hv : v % ecc_p = 0)
    (hu : u % ecc_p ≠ 0) :
    ecc_448_sqrt ecc_p u v scratch = some (0, 0) := by
  have hc := sqrt_cand_zero u v hv
  rw [sqrt_result, hc]
  rcases zero_p_ret_cases ecc_p
    (ecc_mod_sub ecc_p (ecc_mod_mul ecc_p (ecc_mod_sqr ecc_p 0) v) u) with h1 | h0
  · exfalso
    have := (sqrt_ret_iff u v 0).mp h1
    apply hu
    rw [← this]
    simp
  · rw [h0]

/-- Witness for C6, amended: the scenario v = 0, u = 1 returns false. -/
theorem ecc_448_sqrt_zero_denominator_witness :
    0 % ecc_p = 0 ∧ 1 % ecc_p ≠ 0 ∧ ecc_448_sqrt ecc_p 1 0 0 = some (0, 0) :=
  ⟨Nat.zero_mod _, by rw [ecc_p_eq]; norm_num,
   ecc_448_sqrt_zero_denominator 1 0 0 (Nat.zero_mod _) (by rw [ecc_p_eq]; norm_num)⟩

/-! ## Further properties of the zero test, the squaring engine and the square root -/

/-- C11: `ecc_448_zero_p` is idempotent: for every buffer value `x` in
`[0, 2p)`, applying it a second time to the buffer left by the first
application returns the same boolean and leaves the buffer unchanged. -/
theorem ecc_448_zero_p_idempotent (x : Nat) (hx : x < 2 * ecc_p) (hbuf : x < LIMB_RANGE) :
    (ecc_448_zero_p ecc_p (ecc_448_zero_p ecc_p x).2).1 = (ecc_448_zero_p ecc_p x).1 ∧
    (ecc_448_zero_p ecc_p (ecc_448_zero_p ecc_p x).2).2 = (ecc_448_zero_p ecc_p x).2 := by
  have hb : (ecc_448_zero_p ecc_p x).2 = x % ecc_p := by
    rw [zero_p_buf ecc_p x ecc_p_lt_range hbuf, mod_p_of_lt_two_p x hx]
  have hlt : x % ecc_p < LIMB_RANGE := lt_trans (Nat.mod_lt _ ecc_p_pos) ecc_p_lt_range
  rw [hb]
  constructor
  · have h1 := zero_p_ret_iff (x % ecc_p) hlt
    have h2 := zero_p_ret_iff x hbuf
    rw [Nat.mod_mod] at h1
    rcases zero_p_ret_cases ecc_p (x % ecc_p) with a | a <;>
      rcases zero_p_ret_cases ecc_p x with b | b
    · rw [a, b]
    · rw [h2.mpr (h1.mp a)] at b
      exact absurd b (Nat.succ_ne_zero 0)
    · rw [h1.mpr (h2.mp b)] at a
      exact absurd a (Nat.succ_ne_zero 0)
    · rw [a, b]
  · rw [zero_p_buf_mod _ hlt, Nat.mod_mod]

/-- Witness for C11: the buffer holding `p + 2`. -/
theorem ecc_448_zero_p_idempotent_witness :
    ecc_p + 2 < 2 * ecc_p ∧ ecc_p + 2 < LIMB_RANGE ∧
    (ecc_448_zero_p ecc_p (ecc_448_zero_p ecc_p (ecc_p + 2)).2).1 =
      (ecc_448_zero_p ecc_p (ecc_p + 2)).1 ∧
    (ecc_448_zero_p ecc_p (ecc_448_zero_p ecc_p (ecc_p + 2)).2).2 =
      (ecc_448_zero_p ecc_p (ecc_p + 2)).2 :=
  ⟨by rw [ecc_p_eq]; norm_num,
   by rw [ecc_p_eq]; norm_num [LIMB_RANGE, GMP_NUMB_BITS, ECC_LIMB_SIZE],
   ecc_448_zero_p_idempotent (ecc_p + 2) (by rw [ecc_p_eq]; norm_num)
     (by rw [ecc_p_eq]; norm_num [LIMB_RANGE, GMP_NUMB_BITS, ECC_LIMB_SIZE])⟩

/-- C12: for every field element `x` and every `k ≥ 1` that fits the
`unsigned` counter, `ecc_mod_pow_2k` returns and writes `x ^ (2^k) mod p` to
`rp` (for any modulus `m`). -/
theorem ecc_mod_pow_2k_spec (m x k tp : Nat) (hk1 : 1 ≤ k) (hk : k < UINT_RANGE) :
    ∃ tp', ecc_mod_pow_2k m x k tp = some (x ^ 2 ^ k % m, tp') :=
  ⟨_, pow_2k_eq m x k tp hk1 hk⟩

/-- Witness for C12: three squarings of 2 modulo p. -/
theorem ecc_mod_pow_2k_spec_witness :
    1 ≤ 3 ∧ 3 < UINT_RANGE ∧
    ∃ tp', ecc_mod_pow_2k ecc_p 2 3 0 = some (2 ^ 2 ^ 3 % ecc_p, tp') :=
  ⟨by decide, by decide, ecc_mod_pow_2k_spec ecc_p 2 3 0 (by decide) (by decide)⟩

/-- C13: `ecc_448_sqrt` returns 1 exactly when a root exists: for every `u`
and `v` (`v ≡ 0` included) it returns 1 if and only if some `y` has
`v * y^2 ≡ u (mod p)`, and 0 otherwise.  In particular `sqrt (0, 0)` returns
1 with `x = 0`, and `sqrt (u, 0)` returns 0 for every `u` not congruent to
zero. -/
theorem ecc_448_sqrt_iff_exists (u v scratch : Nat) :
    (∃ r x, ecc_448_sqrt ecc_p u v scratch = some (r, x) ∧ (r = 1 ∨ r = 0) ∧
      (r = 1 ↔ ∃ y, v * y ^ 2 % ecc_p = u % ecc_p)) ∧
    ecc_448_sqrt ecc_p 0 0 scratch = some (1, 0) ∧
    (u % ecc_p ≠ 0 → ecc_448_sqrt ecc_p u 0 scratch = some (0, 0)) := by
  refine ⟨⟨_, _, sqrt_result u v scratch, zero_p_ret_cases _ _, ?_⟩, ?_, ?_⟩
  · rw [sqrt_ret_iff]
    constructor
    · exact fun h => ⟨_, h⟩
    · rintro ⟨y, hy⟩
      exact sqrt_cand_root_any u v y hy
  · rw [sqrt_result, sqrt_cand_zero 0 0 (Nat.zero_mod _), (sqrt_ret_iff 0 0 0).mpr (by simp)]
  · intro hu
    rw [sqrt_result, sqrt_cand_zero u 0 (Nat.zero_mod _)]
    rcases zero_p_ret_cases ecc_p
      (ecc_mod_sub ecc_p (ecc_mod_mul ecc_p (ecc_mod_sqr ecc_p 0) 0) u) with h1 | h0
    · exfalso
      have := (sqrt_ret_iff u 0 0).mp h1
      apply hu
      rw [← this]
      simp
    · rw [h0]

/-- C14: for every `u` and `v` (`v ≡ 0` included), the candidate `x` written
by `ecc_448_sqrt` is `u^3 * v * (u^5 * v^3) ^ ((p - 3) / 4) mod p`, where
`(p - 3) / 4 = 2^446 - 2^222 - 1`; and for `v` not congruent to zero, with
`w` the inverse of `v` computed by `ecc_448_inv`, this equals
`(u * w) ^ ((p + 1) / 4) mod p`, that is `(u / v) ^ ((p + 1) / 4)`. -/
theorem ecc_448_sqrt_candidate (u v scratch : Nat) :
    (∃ r, ecc_448_sqrt ecc_p u v scratch =
      some (r, u ^ 3 * v * (u ^ 5 * v ^ 3) ^ ((ecc_p - 3) / 4) % ecc_p)) ∧
    (ecc_p - 3) / 4 = 2 ^ 446 - 2 ^ 222 - 1 ∧
    (v % ecc_p ≠ 0 →
      ∃ w, ecc_448_inv ecc_p v scratch = some w ∧ w * v % ecc_p = 1 ∧
        u ^ 3 * v * (u ^ 5 * v ^ 3) ^ ((ecc_p - 3) / 4) % ecc_p =
          (u * w) ^ ((ecc_p + 1) / 4) % ecc_p) := by
  have h : (ecc_p - 3) / 4 = 2 ^ 446 - 2 ^ 222 - 1 := by rw [ecc_p_eq]; norm_num
  have h' : (ecc_p + 1) / 4 = 2 ^ 446 - 2 ^ 222 - 1 + 1 := by rw [ecc_p_eq]; norm_num
  rw [h, h']
  refine ⟨⟨_, sqrt_result u v scratch⟩, rfl, fun hv => ?_⟩
  have hw : v ^ (2 ^ 448 - 2 ^ 224 - 3) % ecc_p * v % ecc_p = 1 := by
    rw [Nat.mod_mul_mod, ← pow_succ]
    have e : 2 ^ 448 - 2 ^ 224 - 3 + 1 = ecc_p - 1 := by rw [ecc_p_eq]; norm_num
    rw [e]
    exact fermat_ecc_p v hv
  exact ⟨_, inv_eq ecc_p v scratch, hw, sqrt_cand_ratio u v _ hw⟩

/-- Witness for C14: u = 245, v = 5, where `v` is invertible and the
candidate is `(u / v) ^ ((p + 1) / 4)`. -/
theorem ecc_448_sqrt_candidate_witness :
    5 % ecc_p ≠ 0 ∧
    (∃ r, ecc_448_sqrt ecc_p 245 5 0 =
      some (r, 245 ^ 3 * 5 * (245 ^ 5 * 5 ^ 3) ^ ((ecc_p - 3) / 4) % ecc_p)) ∧
    ∃ w, ecc_448_inv ecc_p 5 0 = some w ∧ w * 5 % ecc_p = 1 ∧
      245 ^ 3 * 5 * (245 ^ 5 * 5 ^ 3) ^ ((ecc_p - 3) / 4) % ecc_p =
        (245 * w) ^ ((ecc_p + 1) / 4) % ecc_p :=
  ⟨by rw [ecc_p_eq]; norm_num,
   (ecc_448_sqrt_candidate 245 5 0).1,
   (ecc_448_sqrt_candidate 245 5 0).2.2 (by rw [ecc_p_eq]; norm_num)⟩

/-! ## The routines in memory: trajectory, counts, trace and scratch -/

/-- C15: the 24 values written in program order by the statements of
`ecc_mod_pow_446m224m1` are `a^e mod p` for e = 2, 3, 6, 2^3-1, 2^6-2^3,
2^6-1, 2^9-2^3, 2^9-1, 2^18-2^9, 2^18-1, 2^19-2, 2^19-1, 2^37-2^18, 2^37-1,
2^74-2^37, 2^74-1, 2^111-2^37, 2^111-1, 2^222-2^111, 2^222-1, 2^223-2,
2^223-1, 2^446-2^223, 2^446-2^222-1, for every input `a`; the last one is
the result of the routine. -/
theorem ecc_mod_pow_446m224m1_trajectory (p a t2 : Nat) :
    ∃ s, ecc_mod_pow_446m224m1_at (natPrims p) ECC_448_INV_ITCH loc_rp loc_ap loc_scratch
        (Machine.init (some a) none) = some s ∧
      s.written =
        [2, 3, 6, 2 ^ 3 - 1, 2 ^ 6 - 2 ^ 3, 2 ^ 6 - 1, 2 ^ 9 - 2 ^ 3, 2 ^ 9 - 1,
          2 ^ 18 - 2 ^ 9, 2 ^ 18 - 1, 2 ^ 19 - 2, 2 ^ 19 - 1, 2 ^ 37 - 2 ^ 18, 2 ^ 37 - 1,
          2 ^ 74 - 2 ^ 37, 2 ^ 74 - 1, 2 ^ 111 - 2 ^ 37, 2 ^ 111 - 1, 2 ^ 222 - 2 ^ 111,
          2 ^ 222 - 1, 2 ^ 223 - 2, 2 ^ 223 - 1, 2 ^ 446 - 2 ^ 223,
          2 ^ 446 - 2 ^ 222 - 1].map (fun e => a ^ e % p) ∧
      s.written.length = 24 ∧
      s.mem loc_rp = ecc_mod_pow_446m224m1 p a t2 := by
  obtain ⟨s, h1, h2, h3, _, _, _⟩ := pow_446m224m1_at_run p a
  refine ⟨s, h1, h3, ?_, ?_⟩
  · rw [h3]
    rfl
  · rw [h2, pow_446m224m1_eq]

/-- C16: for every `k` with `1 ≤ k < 2^32`, `ecc_mod_pow_2k` terminates after
exactly `k` modular squarings: when `k` is odd one squaring is done first,
when `k` is even two are, and the remaining even count is consumed two
squarings per loop iteration; the unsigned counter reaches 0 without
wrapping below zero. -/
theorem ecc_mod_pow_2k_squarings {V R : Type} (P : Prims V R) (itch : Nat) (rp xp tp : Loc)
    (k : Nat) (s : Machine V) (x : V)
    (hrp : scratch_ok itch rp 2 = true) (htp : scratch_ok itch tp 2 = true)
    (hxp : scratch_ok itch xp 1 = true) (hov : overlaps rp 2 tp 2 = false)
    (hx1 : overlaps rp 2 xp 1 = false) (hx2 : overlaps tp 2 xp 1 = false)
    (hk1 : 1 ≤ k) (hk : k < 2 ^ 32) (hx : s.mem xp = some x) :
    ∃ s', ecc_mod_pow_2k_at P itch rp xp k tp s = some s' ∧
      s'.ops = s.ops ++ pow_2k_trace rp xp k tp ∧
      (pow_2k_trace rp xp k tp).length = k ∧
      (k % 2 = 1 → pow_2k_trace rp xp k tp =
        Op.sqr rp xp :: (List.replicate ((k - 1) / 2) [Op.sqr tp rp, Op.sqr rp tp]).flatten) ∧
      (k % 2 = 0 → pow_2k_trace rp xp k tp =
        Op.sqr tp xp :: Op.sqr rp tp ::
          (List.replicate ((k - 2) / 2) [Op.sqr tp rp, Op.sqr rp tp]).flatten) ∧
      s'.wrapped = s.wrapped ∧
      s'.mem rp = some (P.sqr^[k] x) := by
  obtain ⟨s', h1, h2, h3, h4, _⟩ :=
    pow_2k_at_eq P itch rp xp tp hrp htp hxp hov hx1 hx2 k s x hk1 hk hx
  refine ⟨s', h1, h3, pow_2k_trace_length rp xp tp k hk1, ?_, ?_, h4, h2⟩
  · intro hodd
    unfold pow_2k_trace
    rw [if_pos hodd, if_pos hodd]
    rfl
  · intro hev
    have hodd : ¬ k % 2 = 1 := by omega
    unfold pow_2k_trace
    rw [if_neg hodd, if_neg hodd]
    rfl

/-- Witness for C16: three squarings of 2 modulo p, from the input buffer
into `rp` with the scratch as `tp`. -/
theorem ecc_mod_pow_2k_squarings_witness :
    scratch_ok ECC_448_INV_ITCH loc_rp 2 = true ∧
    scratch_ok ECC_448_INV_ITCH loc_scratch 2 = true ∧
    scratch_ok ECC_448_INV_ITCH loc_ap 1 = true ∧
    overlaps loc_rp 2 loc_scratch 2 = false ∧
    overlaps loc_rp 2 loc_ap 1 = false ∧
    overlaps loc_scratch 2 loc_ap 1 = false ∧
    1 ≤ 3 ∧ 3 < 2 ^ 32 ∧
    (Machine.init (some 2) none).mem loc_ap = some 2 ∧
    ∃ s', ecc_mod_pow_2k_at (natPrims ecc_p) ECC_448_INV_ITCH loc_rp loc_ap 3 loc_scratch
        (Machine.init (some 2) none) = some s' ∧
      s'.ops = (Machine.init (some 2) none).ops ++ pow_2k_trace loc_rp loc_ap 3 loc_scratch ∧
      (pow_2k_trace loc_rp loc_ap 3 loc_scratch).length = 3 ∧
      (3 % 2 = 1 → pow_2k_trace loc_rp loc_ap 3 loc_scratch =
        Op.sqr loc_rp loc_ap ::
          (List.replicate ((3 - 1) / 2)
            [Op.sqr loc_scratch loc_rp, Op.sqr loc_rp loc_scratch]).flatten) ∧
      (3 % 2 = 0 → pow_2k_trace loc_rp loc_ap 3 loc_scratch =
        Op.sqr loc_scratch loc_ap :: Op.sqr loc_rp loc_scratch ::
          (List.replicate ((3 - 2) / 2)
            [Op.sqr loc_scratch loc_rp, Op.sqr loc_rp loc_scratch]).flatten) ∧
      s'.wrapped = (Machine.init (some 2) none).wrapped ∧
      s'.mem loc_rp = some ((natPrims ecc_p).sqr^[3] 2) :=
  ⟨by decide, by decide, by decide, by decide, by decide, by decide, by decide, by decide,
   rfl,
   ecc_mod_pow_2k_squarings (natPrims ecc_p) ECC_448_INV_ITCH loc_rp loc_ap loc_scratch 3
     (Machine.init (some 2) none) 2 (by decide) (by decide) (by decide) (by decide)
     (by decide) (by decide) (by decide) (by decide) rfl⟩

/-- C17: every call of `ecc_mod_pow_2k` made by `ecc_mod_pow_446m224m1`
passes `k ≥ 1` (the eight calls use k = 3, 3, 9, 18, 37, 37, 111, 223), and
in the runs of the chain, of the inverse and of the square root the unsigned
counter never wraps; the unsupported call with `k = 0` does wrap it, after
`k -= 2`. -/
theorem ecc_mod_pow_2k_counts (p a u v : Nat) (rp ap scratch : Loc) :
    pow_2k_counts (ecc_mod_pow_446m224m1_stmts rp ap scratch) =
      [3, 3, 9, 18, 37, 37, 111, 223] ∧
    (∀ k ∈ pow_2k_counts (ecc_mod_pow_446m224m1_stmts rp ap scratch), 1 ≤ k ∧ k < 2 ^ 32) ∧
    (∃ s, ecc_mod_pow_446m224m1_at (natPrims p) ECC_448_INV_ITCH loc_rp loc_ap loc_scratch
        (Machine.init (some a) none) = some s ∧ s.wrapped = false) ∧
    (∃ s, ecc_448_inv_at (natPrims p) ECC_448_INV_ITCH loc_rp loc_ap loc_scratch
        (Machine.init (some a) none) = some s ∧ s.wrapped = false) ∧
    (∃ r s, ecc_448_sqrt_at (natPrims p) ECC_448_SQRT_ITCH loc_rp loc_ap loc_vp loc_scratch
        (Machine.init (some u) (some v)) = some (r, s) ∧ s.wrapped = false) ∧
    (∃ s, ecc_mod_pow_2k_at (natPrims p) ECC_448_INV_ITCH loc_rp loc_ap 0 loc_scratch
        (Machine.init (some a) none) = some s ∧ s.wrapped = true) := by
  have hc : pow_2k_counts (ecc_mod_pow_446m224m1_stmts rp ap scratch) =
      [3, 3, 9, 18, 37, 37, 111, 223] := rfl
  refine ⟨hc, ?_, ?_, ?_, ?_, ?_⟩
  · intro k hk
    rw [hc] at hk
    simp only [List.mem_cons, List.mem_singleton, List.not_mem_nil, or_false] at hk
    rcases hk with rfl | rfl | rfl | rfl | rfl | rfl | rfl | rfl <;> norm_num
  · obtain ⟨s, h1, _, _, h4, _, _⟩ := pow_446m224m1_at_run p a
    exact ⟨s, h1, h4⟩
  · obtain ⟨s, h1, _, h3, _⟩ := inv_at_run p a
    exact ⟨s, h1, h3⟩
  · obtain ⟨r, x, s, h1, _, _, h4, _⟩ := sqrt_at_run p u v 0
    exact ⟨r, s, h1, h4⟩
  · obtain ⟨s, h1, h2, _⟩ := pow_2k_at_zero (natPrims p) ECC_448_INV_ITCH loc_rp loc_ap
      loc_scratch (by decide) (by decide) (by decide) (by decide) (by decide)
      (Machine.init (some a) none) a rfl
    exact ⟨s, h1, h2⟩

/-- C18: the chain is fixed and independent of the input value: for every
two inputs `a` and `a'`, `ecc_mod_pow_446m224m1` executes the same ordered
sequence of primitive operations, the squarings and multiplications of its
statements on the same buffers with the same loop counts in
`ecc_mod_pow_2k`, 457 operations in all. -/
theorem ecc_mod_pow_446m224m1_fixed_trace (p a a' : Nat) :
    ∃ s s', ecc_mod_pow_446m224m1_at (natPrims p) ECC_448_INV_ITCH loc_rp loc_ap loc_scratch
        (Machine.init (some a) none) = some s ∧
      ecc_mod_pow_446m224m1_at (natPrims p) ECC_448_INV_ITCH loc_rp loc_ap loc_scratch
        (Machine.init (some a') none) = some s' ∧
      s.ops = s'.ops ∧
      s.ops = ((ecc_mod_pow_446m224m1_stmts loc_rp loc_ap loc_scratch).map
        Stmt.trace).flatten ∧
      s.ops.length = 457 := by
  obtain ⟨s, h1, _, _, _, h5, _⟩ := pow_446m224m1_at_run p a
  obtain ⟨s', h1', _, _, _, h5', _⟩ := pow_446m224m1_at_run p a'
  refine ⟨s, s', h1, h1', h5.trans h5'.symm, h5, ?_⟩
  rw [h5]
  exact chain_trace_length

/-- C19: the published scratch sizes suffice and the regions do not collide.
With the scratch unwritten at entry, every destination of a product taken
as two blocks and every operand as one, the runs of
`ecc_mod_pow_446m224m1` and `ecc_448_inv` in a scratch of `9 * n` limbs and
of `ecc_448_sqrt` in a scratch of `13 * n` limbs complete: no access leaves
the scratch, no destination meets an operand of its operation, no block is
read that was never written or was clobbered since; every operation of the
trace passes the region check, and the values left in `rp` are those of the
routines on values. -/
theorem scratch_regions_suffice (p a u v t : Nat) :
    (∃ s, ecc_mod_pow_446m224m1_at (natPrims p) ECC_448_INV_ITCH loc_rp loc_ap loc_scratch
        (Machine.init (some a) none) = some s ∧
      s.mem loc_rp = ecc_mod_pow_446m224m1 p a t ∧
      s.ops.all (Op.ok ECC_448_INV_ITCH) = true) ∧
    (∃ s, ecc_448_inv_at (natPrims p) ECC_448_INV_ITCH loc_rp loc_ap loc_scratch
        (Machine.init (some a) none) = some s ∧
      s.mem loc_rp = ecc_448_inv p a t ∧
      s.ops.all (Op.ok ECC_448_INV_ITCH) = true) ∧
    (∃ r x s, ecc_448_sqrt_at (natPrims p) ECC_448_SQRT_ITCH loc_rp loc_ap loc_vp
        loc_scratch (Machine.init (some u) (some v)) = some (r, s) ∧
      s.mem loc_rp = some x ∧
      ecc_448_sqrt p u v t = some (r, x) ∧
      s.ops.all (Op.ok ECC_448_SQRT_ITCH) = true) ∧
    ECC_448_INV_ITCH = 9 * ECC_LIMB_SIZE ∧ ECC_448_SQRT_ITCH = 13 * ECC_LIMB_SIZE := by
  refine ⟨?_, ?_, ?_, rfl, rfl⟩
  · obtain ⟨s, h1, h2, _, _, _, h6⟩ := pow_446m224m1_at_run p a
    exact ⟨s, h1, by rw [h2, pow_446m224m1_eq], h6⟩
  · obtain ⟨s, h1, h2, _, h4⟩ := inv_at_run p a
    exact ⟨s, h1, by rw [h2, inv_eq], h4⟩
  · obtain ⟨r, x, s, h1, h2, h3, _, h5⟩ := sqrt_at_run p u v t
    exact ⟨r, x, s, h1, h2, h3, h5⟩

/-- Counterexample to C20 as stated: the routine has 24 statements, not 21. -/
theorem ecc_mod_pow_446m224m1_not_21_steps :
    (ecc_mod_pow_446m224m1_stmts loc_rp loc_ap loc_scratch).length = 24 ∧
    (ecc_mod_pow_446m224m1_stmts loc_rp loc_ap loc_scratch).length ≠ 21 :=
  ⟨rfl, by decide⟩

/-- C20, amended: the fixed addition chain in `ecc_mod_pow_446m224m1`
consists of exactly 24 steps, counting each modular squaring (4), each
power-of-two-power call (8) and each modular multiplication (12) in the
routine as one step. -/
theorem ecc_mod_pow_446m224m1_24_steps (rp ap scratch : Loc) :
    (ecc_mod_pow_446m224m1_stmts rp ap scratch).length = 24 ∧
    (ecc_mod_pow_446m224m1_stmts rp ap scratch).countP Stmt.is_sqr = 4 ∧
    (ecc_mod_pow_446m224m1_stmts rp ap scratch).countP Stmt.is_pow_2k = 8 ∧
    (ecc_mod_pow_446m224m1_stmts rp ap scratch).countP Stmt.is_mul = 12 :=
  ⟨rfl, rfl, rfl, rfl⟩

end Ecc448
